import Mathlib

/-!
# QuilVisitor: emission of Quil text from gate instructions

A shallow embedding of `src/utils/QuilVisitor.hpp`.

* C++ `std::string` values are Lean `String`s (one Lean character per C++ `char`).
* C++ `int` values (qubit indices, classical addresses) are `Int`; `std::to_string(int)`
  is `to_string`.  The counter `numAddresses` only ever grows by one per recorded
  measurement, starting at zero, and is a `Nat`.
* `size_t` arithmetic is carried out modulo `2 ^ 64` (`size_t_sub`).
* The gate object model (`bits()`, `getParameter`, `name()`, ...) lives in headers that are
  not part of the source tree; an instruction is a value of `Instruction P` carrying exactly
  the data the visitor reads.  The parameter type `P` and its textual rendering
  `lexical_cast : P → String` (`boost::lexical_cast<std::string>`) are parameters of the model.
* Indexing a vector out of range (`bits()[i]`) and requesting a missing parameter
  (`getParameter(0)`) make a visit fail: visits return `Option`.
-/

/-- Instruction variants that the visitor dispatches on, with the data each `visit` overload
reads: the target bits `bits()`, the parameters behind `getParameter`, the classical bit index
of a measurement, and name, condition qubit and nested instructions of a conditional
function. -/
inductive Instruction (P : Type) where
  | Identity (bits : List Int)
  | X (bits : List Int)
  | Y (bits : List Int)
  | Z (bits : List Int)
  | Hadamard (bits : List Int)
  | CNOT (bits : List Int)
  | CZ (bits : List Int)
  | Rx (bits : List Int) (parameters : List P)
  | Ry (bits : List Int) (parameters : List P)
  | Rz (bits : List Int) (parameters : List P)
  | CPhase (bits : List Int) (parameters : List P)
  | Swap (bits : List Int)
  | Measure (bits : List Int) (classicalBitIndex : Int)
  | ConditionalFunction (name : String) (conditionalQubit : Int)
      (instructions : List (Instruction P))
  | GateFunction

/-- Decimal text of a C++ `int` as produced by `std::to_string`: a minus sign for negative
values followed by the digits. -/
def to_string (n : Int) : String := toString n

/-- Contents of a `std::map<int, int>`: key/value pairs with pairwise distinct keys. -/
abbrev IntMap := List (Int × Int)

/-- Lookup of a key (`std::map::find`). -/
def IntMap.find (m : IntMap) (k : Int) : Option Int := m.lookup k

/-- Insertion as done by `std::map::insert`: a pair whose key is already present is
not inserted and the stored value is kept. -/
def IntMap.insert (m : IntMap) (k v : Int) : IntMap :=
  match m.lookup k with
  | some _ => m
  | none => m ++ [(k, v)]

/-- Subscript as done by `std::map::operator[]`: when the key is absent a value-initialised
entry (value `0`) is inserted first; the result is the stored value and the updated map. -/
def IntMap.index (m : IntMap) (k : Int) : Int × IntMap :=
  match m.lookup k with
  | some v => (v, m)
  | none => (0, m ++ [(k, 0)])

/-- State of a `QuilVisitor` object: its data members with their default initialisers. -/
structure QuilVisitor where
  quilStr : String := ""
  classicalAddresses : String := ""
  qubitToClassicalBitIndex : IntMap := []
  measuredQubits : List Int := []
  includeMeasures : Bool := true
  numAddresses : Nat := 0
  deriving DecidableEq

/-- Default constructor `QuilVisitor()`. -/
def QuilVisitor.init : QuilVisitor := {}

/-- Constructor `QuilVisitor(bool measures)`. -/
def QuilVisitor.initMeasures (measures : Bool) : QuilVisitor := { includeMeasures := measures }

/-- Accessor `getQuilString`. -/
def QuilVisitor.getQuilString (v : QuilVisitor) : String := v.quilStr

mutual
/-- The `visit` overloads, selected by the kind of the instruction (`inst->accept(visitor)`). -/
def QuilVisitor.visit {P : Type} (lexical_cast : P → String) (v : QuilVisitor) :
    Instruction P → Option QuilVisitor
  | .Hadamard bits =>
      match bits[0]? with
      | some b0 => some { v with quilStr := v.quilStr ++ ("H " ++ to_string b0 ++ "\n") }
      | none => none
  | .Identity bits =>
      match bits[0]? with
      | some b0 => some { v with quilStr := v.quilStr ++ ("I " ++ to_string b0 ++ "\n") }
      | none => none
  | .CZ bits =>
      match bits[0]?, bits[1]? with
      | some b0, some b1 =>
          some { v with quilStr :=
            v.quilStr ++ ("CZ " ++ to_string b0 ++ " " ++ to_string b1 ++ "\n") }
      | _, _ => none
  | .CNOT bits =>
      match bits[0]?, bits[1]? with
      | some b0, some b1 =>
          some { v with quilStr :=
            v.quilStr ++ ("CNOT " ++ to_string b0 ++ " " ++ to_string b1 ++ "\n") }
      | _, _ => none
  | .X bits =>
      match bits[0]? with
      | some b0 => some { v with quilStr := v.quilStr ++ ("X " ++ to_string b0 ++ "\n") }
      | none => none
  | .Y bits =>
      match bits[0]? with
      | some b0 => some { v with quilStr := v.quilStr ++ ("Y " ++ to_string b0 ++ "\n") }
      | none => none
  | .Z bits =>
      match bits[0]? with
      | some b0 => some { v with quilStr := v.quilStr ++ ("Z " ++ to_string b0 ++ "\n") }
      | none => none
  | .Measure bits classicalBitIdx =>
      match bits[0]? with
      | some b0 =>
          if v.includeMeasures then
            some { v with
              quilStr := v.quilStr ++
                ("MEASURE " ++ to_string b0 ++ " [" ++ to_string classicalBitIdx ++ "]\n")
              classicalAddresses := v.classicalAddresses ++ (to_string classicalBitIdx ++ ", ")
              numAddresses := v.numAddresses + 1
              qubitToClassicalBitIndex := v.qubitToClassicalBitIndex.insert b0 classicalBitIdx }
          else
            some { v with measuredQubits := v.measuredQubits ++ [b0] }
      | none => none
  | .ConditionalFunction name conditionalQubit instructions =>
      let visitor := QuilVisitor.init
      let classicalBitIdx := v.qubitToClassicalBitIndex.index conditionalQubit
      match QuilVisitor.acceptAll lexical_cast visitor instructions with
      | some visitor1 =>
          some { v with
            qubitToClassicalBitIndex := classicalBitIdx.2
            quilStr :=
              v.quilStr ++ ("JUMP-UNLESS @" ++ name ++ " [" ++ to_string classicalBitIdx.1 ++ "]\n")
                ++ visitor1.getQuilString ++ ("LABEL @" ++ name ++ "\n") }
      | none => none
  | .Rx bits parameters =>
      match parameters[0]?, bits[0]? with
      | some p, some b0 =>
          some { v with quilStr :=
            v.quilStr ++ ("RX(" ++ lexical_cast p ++ ") " ++ to_string b0 ++ "\n") }
      | _, _ => none
  | .Ry bits parameters =>
      match parameters[0]?, bits[0]? with
      | some p, some b0 =>
          some { v with quilStr :=
            v.quilStr ++ ("RY(" ++ lexical_cast p ++ ") " ++ to_string b0 ++ "\n") }
      | _, _ => none
  | .Rz bits parameters =>
      match parameters[0]?, bits[0]? with
      | some p, some b0 =>
          some { v with quilStr :=
            v.quilStr ++ ("RZ(" ++ lexical_cast p ++ ") " ++ to_string b0 ++ "\n") }
      | _, _ => none
  | .CPhase bits parameters =>
      match parameters[0]?, bits[0]?, bits[1]? with
      | some p, some b0, some b1 =>
          some { v with quilStr :=
            v.quilStr ++
              ("CPHASE(" ++ lexical_cast p ++ ") " ++ to_string b0 ++ " " ++ to_string b1 ++ "\n") }
      | _, _, _ => none
  | .Swap bits =>
      match bits[0]?, bits[1]? with
      | some b0, some b1 =>
          some { v with quilStr :=
            v.quilStr ++ ("SWAP " ++ to_string b0 ++ " " ++ to_string b1 ++ "\n") }
      | _, _ => none
  | .GateFunction => some v
/-- The loop `for (auto inst : ...) inst->accept(visitor)`: the instructions are visited in
order by one visitor; it is the traversal of a nested body and of a whole circuit alike. -/
def QuilVisitor.acceptAll {P : Type} (lexical_cast : P → String) (v : QuilVisitor) :
    List (Instruction P) → Option QuilVisitor
  | [] => some v
  | inst :: rest =>
      match QuilVisitor.visit lexical_cast v inst with
      | some v1 => QuilVisitor.acceptAll lexical_cast v1 rest
      | none => none
end

/-- Subtraction of `size_t` values: unsigned arithmetic modulo `2 ^ 64`. -/
def size_t_sub (a b : Nat) : Nat := (a % 2 ^ 64 + (2 ^ 64 - b % 2 ^ 64)) % 2 ^ 64

/-- Library call `std::string::substr(pos, count)`: fails (throws `std::out_of_range`) when
`pos` exceeds the size, otherwise returns at most `count` characters starting at `pos`. -/
def substr (s : String) (pos count : Nat) : Option String :=
  if pos ≤ s.length then some ⟨(s.data.drop pos).take count⟩ else none

/-- Accessor `getClassicalAddresses`: the accumulated text without its last two characters,
in brackets. -/
def QuilVisitor.getClassicalAddresses (v : QuilVisitor) : Option String :=
  match substr v.classicalAddresses 0 (size_t_sub v.classicalAddresses.length 2) with
  | some retStr => some ("[" ++ retStr ++ "]")
  | none => none

/-- Accessor `getNumberOfAddresses`. -/
def QuilVisitor.getNumberOfAddresses (v : QuilVisitor) : Nat := v.numAddresses

/-- Accessor `getMeasuredQubits`. -/
def QuilVisitor.getMeasuredQubits (v : QuilVisitor) : List Int := v.measuredQubits

/-- Lines of a text: the maximal runs of characters between line breaks, each line break
closing one line; a trailing run without a line break counts as a last line. -/
def splitLines : List Char → List (List Char)
  | [] => []
  | c :: cs =>
      if c = '\n' then [] :: splitLines cs
      else
        match splitLines cs with
        | [] => [[c]]
        | l :: ls => (c :: l) :: ls

/-- Lines of a text as strings. -/
def textLines (s : String) : List String := (splitLines s.data).map String.mk

/-- Classical addresses of the measurements that one visitor itself visits in a sequence
(measurements inside a conditional function are visited by the nested visitor). -/
def recordedAddresses {P : Type} : List (Instruction P) → List Int
  | [] => []
  | .Measure _ classicalBitIdx :: rest => classicalBitIdx :: recordedAddresses rest
  | _ :: rest => recordedAddresses rest

/-- Target qubits `bits()[0]` of the measurements that one visitor itself visits in a
sequence. -/
def measuredTargets {P : Type} : List (Instruction P) → List Int
  | [] => []
  | .Measure (b0 :: _) _ :: rest => b0 :: measuredTargets rest
  | _ :: rest => measuredTargets rest

/-- Format table of the specification (section 4.1): the line, without its line break, of
every gate kind that emits one line, built from the first and second target bit and the
single parameter.  Measurements, conditional blocks and the composite no-op have no entry,
nor has an instruction that lacks a target bit or parameter the entry names. -/
def formatEntry {P : Type} (lexical_cast : P → String) : Instruction P → Option String
  | .Identity (q :: _) => some ("I " ++ to_string q)
  | .X (q :: _) => some ("X " ++ to_string q)
  | .Y (q :: _) => some ("Y " ++ to_string q)
  | .Z (q :: _) => some ("Z " ++ to_string q)
  | .Hadamard (q :: _) => some ("H " ++ to_string q)
  | .CNOT (b0 :: b1 :: _) => some ("CNOT " ++ to_string b0 ++ " " ++ to_string b1)
  | .CZ (b0 :: b1 :: _) => some ("CZ " ++ to_string b0 ++ " " ++ to_string b1)
  | .Swap (b0 :: b1 :: _) => some ("SWAP " ++ to_string b0 ++ " " ++ to_string b1)
  | .Rx (q :: _) (p :: _) => some ("RX(" ++ lexical_cast p ++ ") " ++ to_string q)
  | .Ry (q :: _) (p :: _) => some ("RY(" ++ lexical_cast p ++ ") " ++ to_string q)
  | .Rz (q :: _) (p :: _) => some ("RZ(" ++ lexical_cast p ++ ") " ++ to_string q)
  | .CPhase (b0 :: b1 :: _) (p :: _) =>
      some ("CPHASE(" ++ lexical_cast p ++ ") " ++ to_string b0 ++ " " ++ to_string b1)
  | _ => none

/-- Text accumulated in `classicalAddresses` for a list of recorded addresses: every address
is followed by a comma and a space. -/
def addressText : List Int → String
  | [] => ""
  | a :: rest => to_string a ++ ", " ++ addressText rest

/-- Text made of the given lines, each closed by a line break. -/
def linesText : List String → String
  | [] => ""
  | e :: rest => e ++ "\n" ++ linesText rest

/-- Whether an instruction is a conditional function. -/
def Instruction.isConditional {P : Type} : Instruction P → Bool
  | .ConditionalFunction _ _ _ => true
  | _ => false

/-- Well-formed instruction, in the words of the specification: a single-qubit kind
(measurement included) carries at least one target bit, a two-qubit kind at least two, a
rotation or controlled-phase kind a parameter as well. -/
def Instruction.wellFormed {P : Type} : Instruction P → Bool
  | .Identity bits => decide (1 ≤ bits.length)
  | .X bits => decide (1 ≤ bits.length)
  | .Y bits => decide (1 ≤ bits.length)
  | .Z bits => decide (1 ≤ bits.length)
  | .Hadamard bits => decide (1 ≤ bits.length)
  | .Measure bits _ => decide (1 ≤ bits.length)
  | .CNOT bits => decide (2 ≤ bits.length)
  | .CZ bits => decide (2 ≤ bits.length)
  | .Swap bits => decide (2 ≤ bits.length)
  | .Rx bits parameters => decide (1 ≤ bits.length) && decide (1 ≤ parameters.length)
  | .Ry bits parameters => decide (1 ≤ bits.length) && decide (1 ≤ parameters.length)
  | .Rz bits parameters => decide (1 ≤ bits.length) && decide (1 ≤ parameters.length)
  | .CPhase bits parameters => decide (2 ≤ bits.length) && decide (1 ≤ parameters.length)
  | .ConditionalFunction _ _ _ => true
  | .GateFunction => true

/-- Condition qubits of the conditional functions that one visitor itself visits in a
sequence. -/
def conditionQubits {P : Type} : List (Instruction P) → List Int
  | [] => []
  | .ConditionalFunction _ q _ :: rest => q :: conditionQubits rest
  | _ :: rest => conditionQubits rest

/-- Entries of an accumulated address text: the runs of characters closed by a comma; what
follows the last comma belongs to no entry. -/
def splitEntries : List Char → List (List Char)
  | [] => []
  | c :: cs =>
      if c = ',' then [] :: splitEntries cs
      else
        match splitEntries cs with
        | [] => []
        | e :: es => (c :: e) :: es

/-- Entries of the address list held in `classicalAddresses`: the comma-closed runs, without
the blank that follows the previous comma. -/
def addressEntries (s : String) : List String :=
  (splitEntries s.data).map (fun e => String.mk (e.dropWhile (fun c => c == ' ')))

/-- Lines that the visit of an instruction other than a conditional function appends in the
given mode: the `MEASURE` line of a measurement in record mode, the format-table line of a
gate, and no line otherwise. -/
def ownLines {P : Type} (lexical_cast : P → String) (measures : Bool) :
    Instruction P → List String
  | .Measure (q :: _) a =>
      if measures then ["MEASURE " ++ to_string q ++ " [" ++ to_string a ++ "]"] else []
  | i => (formatEntry lexical_cast i).toList

/-- Lines that the visits of a sequence without conditional function append. -/
def flatLines {P : Type} (lexical_cast : P → String) (measures : Bool) :
    List (Instruction P) → List String
  | [] => []
  | i :: rest => ownLines lexical_cast measures i ++ flatLines lexical_cast measures rest

/-- Whether a line begins with `MEASURE` and a blank. -/
def isMeasureLine (l : String) : Bool := "MEASURE ".data.isPrefixOf l.data

/-- Text between the first opening bracket of a line and the closing bracket after it. -/
def bracketText (l : String) : String :=
  String.mk (((l.data.dropWhile (fun c => c != '[')).drop 1).takeWhile (fun c => c != ']'))

/-- Whether a line begins with `JUMP-UNLESS @`. -/
def isJumpLine (l : String) : Bool := "JUMP-UNLESS @".data.isPrefixOf l.data

/-- Whether a line begins with `LABEL @`. -/
def isLabelLine (l : String) : Bool := "LABEL @".data.isPrefixOf l.data

/-- Label of a jump line `JUMP-UNLESS @<label> [<address>]`: what stands between the 13
leading characters and the blank before the last opening bracket. -/
def jumpLabel (l : String) : String :=
  String.mk ((((l.data.reverse.dropWhile (fun c => c != '[')).drop 2).reverse).drop 13)

/-- Label of a label line `LABEL @<label>`: what follows the 7 leading characters. -/
def labelName (l : String) : String := String.mk (l.data.drop 7)

/-- Reading of the lines from top to bottom with the labels of the jump lines that are still
open, most recent first: a jump line opens its label, a label line must carry the label of
the most recent open jump line and closes it, and at the end no jump line is open. -/
def wellNested : List String → List String → Bool
  | stack, [] => stack.isEmpty
  | stack, l :: ls =>
      if isJumpLine l then wellNested (jumpLabel l :: stack) ls
      else if isLabelLine l then
        match stack with
        | top :: below => (top == labelName l) && wellNested below ls
        | [] => false
      else wellNested stack ls

mutual
/-- Number of conditional functions in an instruction, at all nesting depths. -/
def countConditionals {P : Type} : Instruction P → Nat
  | .ConditionalFunction _ _ body => 1 + countConditionalsList body
  | _ => 0
/-- Number of conditional functions in a sequence, at all nesting depths. -/
def countConditionalsList {P : Type} : List (Instruction P) → Nat
  | [] => 0
  | i :: rest => countConditionals i + countConditionalsList rest
end

mutual
/-- Whether no label of a conditional function in the instruction, at any nesting depth,
holds a line break. -/
def labelsWithoutLineBreak {P : Type} : Instruction P → Bool
  | .ConditionalFunction name _ body =>
      decide ('\n' ∉ name.data) && labelsWithoutLineBreakList body
  | _ => true
/-- Whether no label of a conditional function in the sequence, at any nesting depth, holds
a line break. -/
def labelsWithoutLineBreakList {P : Type} : List (Instruction P) → Bool
  | [] => true
  | i :: rest => labelsWithoutLineBreak i && labelsWithoutLineBreakList rest
end

/-- Lines free of line breaks in which jump and label lines are balanced and nested, `n` of
each: read after any stack of open labels they leave that stack as it was. -/
def JumpsBalanced (ls : List String) (n : Nat) : Prop :=
  (∀ l ∈ ls, '\n' ∉ l.data) ∧
  (∀ stack rest, wellNested stack (ls ++ rest) = wellNested stack rest) ∧
  (ls.filter isJumpLine).length = n ∧
  (ls.filter isLabelLine).length = n

/-! ## Auxiliary lemmas -/

theorem visit_conditional {P : Type} (lexical_cast : P → String) (v : QuilVisitor)
    (name : String) (q : Int) (body : List (Instruction P)) :
    QuilVisitor.visit lexical_cast v (.ConditionalFunction name q body) =
      (QuilVisitor.acceptAll lexical_cast QuilVisitor.init body).map (fun sub =>
        { v with
          qubitToClassicalBitIndex := (v.qubitToClassicalBitIndex.index q).2
          quilStr :=
            v.quilStr ++ ("JUMP-UNLESS @" ++ name ++ " [" ++
              to_string (v.qubitToClassicalBitIndex.index q).1 ++ "]\n")
              ++ sub.quilStr ++ ("LABEL @" ++ name ++ "\n") }) := by
  simp only [QuilVisitor.visit, QuilVisitor.getQuilString]
  cases QuilVisitor.acceptAll lexical_cast QuilVisitor.init body <;> rfl

theorem index_of_find_none (m : IntMap) (k : Int) (h : m.find k = none) :
    m.index k = (0, m ++ [(k, 0)]) := by
  unfold IntMap.find at h
  simp [IntMap.index, h]

theorem index_of_find_some (m : IntMap) (k a : Int) (h : m.find k = some a) :
    m.index k = (a, m) := by
  unfold IntMap.find at h
  simp [IntMap.index, h]

theorem addressText_append (as bs : List Int) :
    addressText (as ++ bs) = addressText as ++ addressText bs := by
  induction as with
  | nil => simp [addressText]
  | cons a rest ih => simp [addressText, ih, String.append_assoc]

/-- Bookkeeping of one visit: the mode is kept, and the address text, the counter and the
list of measured qubits grow by what a measurement visited by this visitor contributes. -/
theorem visit_bookkeeping {P : Type} (lexical_cast : P → String) (v w : QuilVisitor)
    (i : Instruction P) (h : QuilVisitor.visit lexical_cast v i = some w) :
    w.includeMeasures = v.includeMeasures ∧
    w.classicalAddresses = v.classicalAddresses ++
      addressText (if v.includeMeasures then recordedAddresses [i] else []) ∧
    w.numAddresses = v.numAddresses +
      (if v.includeMeasures then recordedAddresses [i] else []).length ∧
    w.measuredQubits = v.measuredQubits ++
      (if v.includeMeasures then [] else measuredTargets [i]) := by
  cases i with
  | ConditionalFunction name q body =>
      rw [visit_conditional] at h
      cases hb : QuilVisitor.acceptAll lexical_cast QuilVisitor.init body with
      | none => simp [hb] at h
      | some sub =>
          simp [hb] at h
          subst h
          simp [recordedAddresses, measuredTargets, addressText]
  | Measure bits a =>
      cases bits with
      | nil => simp [QuilVisitor.visit] at h
      | cons b0 rest =>
          simp only [QuilVisitor.visit, List.getElem?_cons_zero] at h
          cases hm : v.includeMeasures with
          | true =>
              simp [hm] at h
              subst h
              simp [recordedAddresses, measuredTargets, addressText]
          | false =>
              simp [hm] at h
              subst h
              simp [recordedAddresses, measuredTargets, addressText]
  | GateFunction =>
      simp [QuilVisitor.visit] at h
      subst h
      simp [recordedAddresses, measuredTargets, addressText]
  | _ =>
      simp only [QuilVisitor.visit] at h
      split at h
      · simp at h
        subst h
        simp [recordedAddresses, measuredTargets, addressText]
      · simp at h

theorem recordedAddresses_cons {P : Type} (i : Instruction P) (rest : List (Instruction P)) :
    recordedAddresses (i :: rest) = recordedAddresses [i] ++ recordedAddresses rest := by
  cases i <;> simp [recordedAddresses]

theorem measuredTargets_cons {P : Type} (i : Instruction P) (rest : List (Instruction P)) :
    measuredTargets (i :: rest) = measuredTargets [i] ++ measuredTargets rest := by
  cases i with
  | Measure bits a => cases bits <;> simp [measuredTargets]
  | _ => simp [measuredTargets]

/-- Bookkeeping of a traversal: the facts of `visit_bookkeeping` summed over a sequence. -/
theorem acceptAll_bookkeeping {P : Type} (lexical_cast : P → String)
    (instrs : List (Instruction P)) (v w : QuilVisitor)
    (h : QuilVisitor.acceptAll lexical_cast v instrs = some w) :
    w.includeMeasures = v.includeMeasures ∧
    w.classicalAddresses = v.classicalAddresses ++
      addressText (if v.includeMeasures then recordedAddresses instrs else []) ∧
    w.numAddresses = v.numAddresses +
      (if v.includeMeasures then recordedAddresses instrs else []).length ∧
    w.measuredQubits = v.measuredQubits ++
      (if v.includeMeasures then [] else measuredTargets instrs) := by
  induction instrs generalizing v with
  | nil =>
      simp [QuilVisitor.acceptAll] at h
      subst h
      simp [recordedAddresses, measuredTargets, addressText]
  | cons i rest ih =>
      simp only [QuilVisitor.acceptAll] at h
      cases hv : QuilVisitor.visit lexical_cast v i with
      | none => simp [hv] at h
      | some v1 =>
          simp only [hv] at h
          obtain ⟨s1, s2, s3, s4⟩ := visit_bookkeeping lexical_cast v v1 i hv
          obtain ⟨r1, r2, r3, r4⟩ := ih v1 h
          rw [recordedAddresses_cons, measuredTargets_cons]
          refine ⟨r1.trans s1, ?_, ?_, ?_⟩
          · rw [r2, s2, s1]
            cases v.includeMeasures <;> simp [addressText_append, addressText, String.append_assoc]
          · rw [r3, s3, s1]
            cases v.includeMeasures <;> simp [Nat.add_assoc]
          · rw [r4, s4, s1]
            cases v.includeMeasures <;> simp

theorem intercalate_go_addressText (acc : String) (rest : List Int) :
    String.intercalate.go acc ", " (rest.map to_string) ++ ", " =
      acc ++ ", " ++ addressText rest := by
  induction rest generalizing acc with
  | nil => simp [String.intercalate.go, addressText]
  | cons b r ih =>
      simp only [List.map_cons, String.intercalate.go, ih, addressText, String.append_assoc]

theorem addressText_eq_intercalate (as : List Int) (hne : as ≠ []) :
    addressText as = ", ".intercalate (as.map to_string) ++ ", " := by
  cases as with
  | nil => exact absurd rfl hne
  | cons a rest =>
      simp only [List.map_cons, String.intercalate, intercalate_go_addressText, addressText]

theorem size_t_sub_two (n : Nat) (h : n + 2 < 2 ^ 64) : size_t_sub (n + 2) 2 = n := by
  unfold size_t_sub
  omega

theorem substr_drop_last_two (x : String) (h : (x ++ ", ").length < 2 ^ 64) :
    substr (x ++ ", ") 0 (size_t_sub (x ++ ", ").length 2) = some x := by
  have hlen : (x ++ ", ").length = x.length + 2 := by
    rw [String.length_append]; rfl
  rw [hlen] at h
  rw [hlen, size_t_sub_two _ h]
  unfold substr
  rw [if_pos (Nat.zero_le _)]
  have hdata : ((x ++ ", ").data.drop 0).take x.length = x.data := by
    rw [List.drop_zero, String.data_append]
    exact List.take_left' rfl
  rw [hdata]

/-- Rendering of an address text that ends an entry: the brackets enclose the text without
its final comma and space. -/
theorem getClassicalAddresses_addressText (v : QuilVisitor) (as : List Int) (hne : as ≠ [])
    (htext : v.classicalAddresses = addressText as)
    (hsize : v.classicalAddresses.length < 2 ^ 64) :
    v.getClassicalAddresses = some ("[" ++ ", ".intercalate (as.map to_string) ++ "]") := by
  unfold QuilVisitor.getClassicalAddresses
  rw [htext, addressText_eq_intercalate as hne] at hsize ⊢
  rw [substr_drop_last_two _ hsize]

theorem getClassicalAddresses_empty (v : QuilVisitor) (htext : v.classicalAddresses = "") :
    v.getClassicalAddresses = some "[]" := by
  unfold QuilVisitor.getClassicalAddresses
  rw [htext]
  decide

theorem digitChar_ne_newline : ∀ n < 10, Nat.digitChar n ≠ '\n' := by
  decide

theorem toDigitsCore_no_newline (fuel n : Nat) (acc : List Char) (hacc : '\n' ∉ acc) :
    '\n' ∉ Nat.toDigitsCore 10 fuel n acc := by
  induction fuel generalizing n acc with
  | zero => simpa [Nat.toDigitsCore] using hacc
  | succ f ih =>
      have hcons : '\n' ∉ Nat.digitChar (n % 10) :: acc := by
        simp only [List.mem_cons, not_or]
        exact ⟨fun h => digitChar_ne_newline _ (Nat.mod_lt _ (by decide)) h.symm, hacc⟩
      simp only [Nat.toDigitsCore]
      split
      · exact hcons
      · exact ih _ _ hcons

theorem repr_no_newline (n : Nat) : '\n' ∉ (Nat.repr n).data := by
  simp only [Nat.repr, Nat.toDigits, List.asString]
  exact toDigitsCore_no_newline _ _ _ (by simp)

theorem to_string_no_newline (n : Int) : '\n' ∉ (to_string n).data := by
  cases n with
  | ofNat m => exact repr_no_newline m
  | negSucc m =>
      show '\n' ∉ ("-" ++ Nat.repr (m + 1)).data
      rw [String.data_append, List.mem_append, not_or]
      exact ⟨by decide, repr_no_newline _⟩

theorem formatEntry_no_newline {P : Type} (lexical_cast : P → String)
    (hcast : ∀ p, '\n' ∉ (lexical_cast p).data) (i : Instruction P) (e : String)
    (h : formatEntry lexical_cast i = some e) : '\n' ∉ e.data := by
  have hs := to_string_no_newline
  unfold formatEntry at h
  split at h <;> simp at h <;> subst h <;>
    simp [String.data_append, hs, hcast]

theorem splitLines_line (e rest : List Char) (he : '\n' ∉ e) :
    splitLines (e ++ '\n' :: rest) = e :: splitLines rest := by
  induction e with
  | nil => simp [splitLines]
  | cons c cs ih =>
      simp only [List.mem_cons, not_or] at he
      have hc : c ≠ '\n' := fun h => he.1 h.symm
      simp [splitLines, hc, ih he.2]

theorem textLines_linesText (es : List String) (hes : ∀ e ∈ es, '\n' ∉ e.data) :
    textLines (linesText es) = es := by
  induction es with
  | nil => rfl
  | cons e rest ih =>
      have hrest : ∀ x ∈ rest, '\n' ∉ x.data := fun x hx => hes x (List.mem_cons_of_mem _ hx)
      have ih1 := ih hrest
      unfold textLines at ih1 ⊢
      have hdata : (linesText (e :: rest)).data = e.data ++ '\n' :: (linesText rest).data := by
        simp [linesText, String.data_append]
      rw [hdata, splitLines_line _ _ (hes e (List.mem_cons_self _ _))]
      simp [ih1]

/-- A visit of a gate with a format-table entry appends that entry and one line break and
changes nothing else. -/
theorem visit_formatEntry {P : Type} (lexical_cast : P → String) (v : QuilVisitor)
    (i : Instruction P) (e : String) (h : formatEntry lexical_cast i = some e) :
    QuilVisitor.visit lexical_cast v i = some { v with quilStr := v.quilStr ++ (e ++ "\n") } := by
  unfold formatEntry at h
  split at h <;> simp at h <;> subst h <;> simp [QuilVisitor.visit]

theorem acceptAll_gates {P : Type} (lexical_cast : P → String) (instrs : List (Instruction P))
    (v : QuilVisitor) (hgates : ∀ i ∈ instrs, (formatEntry lexical_cast i).isSome = true) :
    QuilVisitor.acceptAll lexical_cast v instrs =
      some { v with quilStr :=
        v.quilStr ++ linesText (instrs.filterMap (formatEntry lexical_cast)) } := by
  induction instrs generalizing v with
  | nil => simp [QuilVisitor.acceptAll, linesText]
  | cons i rest ih =>
      have hi := hgates i (List.mem_cons_self _ _)
      obtain ⟨e, he⟩ := Option.isSome_iff_exists.mp hi
      have hrest : ∀ x ∈ rest, (formatEntry lexical_cast x).isSome = true :=
        fun x hx => hgates x (List.mem_cons_of_mem _ hx)
      simp only [QuilVisitor.acceptAll, visit_formatEntry lexical_cast v i e he, ih _ hrest,
        List.filterMap_cons, he, linesText, String.append_assoc]

theorem filterMap_formatEntry {P : Type} (lexical_cast : P → String)
    (instrs : List (Instruction P))
    (hgates : ∀ i ∈ instrs, (formatEntry lexical_cast i).isSome = true) :
    (instrs.filterMap (formatEntry lexical_cast)).map some = instrs.map (formatEntry lexical_cast) := by
  induction instrs with
  | nil => rfl
  | cons i rest ih =>
      obtain ⟨e, he⟩ := Option.isSome_iff_exists.mp (hgates i (List.mem_cons_self _ _))
      have hrest : ∀ x ∈ rest, (formatEntry lexical_cast x).isSome = true :=
        fun x hx => hgates x (List.mem_cons_of_mem _ hx)
      simp [List.filterMap_cons, he, ih hrest]

theorem acceptAll_append {P : Type} (lexical_cast : P → String)
    (s1 s2 : List (Instruction P)) (v : QuilVisitor) :
    QuilVisitor.acceptAll lexical_cast v (s1 ++ s2) =
      (QuilVisitor.acceptAll lexical_cast v s1).bind
        (fun u => QuilVisitor.acceptAll lexical_cast u s2) := by
  induction s1 generalizing v with
  | nil => simp [QuilVisitor.acceptAll]
  | cons i rest ih =>
      simp only [List.cons_append, QuilVisitor.acceptAll]
      cases QuilVisitor.visit lexical_cast v i with
      | none => rfl
      | some v1 => exact ih v1

/-- A traversal that succeeds on a sequence succeeds on each of its prefixes, and the rest of
the traversal continues from the state reached there. -/
theorem acceptAll_prefix {P : Type} (lexical_cast : P → String)
    (s1 s2 : List (Instruction P)) (v w : QuilVisitor)
    (h : QuilVisitor.acceptAll lexical_cast v (s1 ++ s2) = some w) :
    ∃ u, QuilVisitor.acceptAll lexical_cast v s1 = some u ∧
      QuilVisitor.acceptAll lexical_cast u s2 = some w := by
  rw [acceptAll_append] at h
  cases h1 : QuilVisitor.acceptAll lexical_cast v s1 with
  | none => simp [h1] at h
  | some u => exact ⟨u, rfl, by simpa [h1] using h⟩

/-- One visit only appends to the text. -/
theorem visit_text_grows {P : Type} (lexical_cast : P → String) (v w : QuilVisitor)
    (i : Instruction P) (h : QuilVisitor.visit lexical_cast v i = some w) :
    ∃ t, w.quilStr = v.quilStr ++ t := by
  cases i with
  | ConditionalFunction name q body =>
      rw [visit_conditional] at h
      cases hb : QuilVisitor.acceptAll lexical_cast QuilVisitor.init body with
      | none => simp [hb] at h
      | some sub =>
          simp [hb] at h
          subst h
          exact ⟨("JUMP-UNLESS @" ++ name ++ " [" ++
            to_string (v.qubitToClassicalBitIndex.index q).1 ++ "]\n") ++ sub.quilStr ++
            ("LABEL @" ++ name ++ "\n"), by simp only [String.append_assoc]⟩
  | Measure bits a =>
      cases bits with
      | nil => simp [QuilVisitor.visit] at h
      | cons b0 rest =>
          simp only [QuilVisitor.visit, List.getElem?_cons_zero] at h
          cases hm : v.includeMeasures with
          | true =>
              simp [hm] at h
              subst h
              exact ⟨_, rfl⟩
          | false =>
              simp [hm] at h
              subst h
              exact ⟨"", by simp⟩
  | GateFunction =>
      simp [QuilVisitor.visit] at h
      subst h
      exact ⟨"", by simp⟩
  | _ =>
      simp only [QuilVisitor.visit] at h
      split at h
      · simp at h
        subst h
        exact ⟨_, rfl⟩
      · simp at h

/-- A traversal only appends to the text. -/
theorem acceptAll_text_grows {P : Type} (lexical_cast : P → String)
    (instrs : List (Instruction P)) (v w : QuilVisitor)
    (h : QuilVisitor.acceptAll lexical_cast v instrs = some w) :
    ∃ t, w.quilStr = v.quilStr ++ t := by
  induction instrs generalizing v with
  | nil =>
      simp [QuilVisitor.acceptAll] at h
      subst h
      exact ⟨"", by simp⟩
  | cons i rest ih =>
      simp only [QuilVisitor.acceptAll] at h
      cases hv : QuilVisitor.visit lexical_cast v i with
      | none => simp [hv] at h
      | some v1 =>
          simp only [hv] at h
          obtain ⟨t1, ht1⟩ := visit_text_grows lexical_cast v v1 i hv
          obtain ⟨t2, ht2⟩ := ih v1 h
          exact ⟨t1 ++ t2, by rw [ht2, ht1, String.append_assoc]⟩

/-- A well-formed instruction other than a conditional function is visited successfully from
every state. -/
theorem visit_wellFormed {P : Type} (lexical_cast : P → String) (v : QuilVisitor)
    (i : Instruction P) (hwf : i.wellFormed = true) (hnc : i.isConditional = false) :
    ∃ w, QuilVisitor.visit lexical_cast v i = some w := by
  cases i with
  | ConditionalFunction name q body => simp [Instruction.isConditional] at hnc
  | GateFunction => exact ⟨v, by simp [QuilVisitor.visit]⟩
  | Measure bits a =>
      cases bits with
      | nil => simp [Instruction.wellFormed] at hwf
      | cons b0 rest =>
          cases hm : v.includeMeasures <;> simp [QuilVisitor.visit, hm]
  | Identity bits | X bits | Y bits | Z bits | Hadamard bits =>
      cases bits with
      | nil => simp [Instruction.wellFormed] at hwf
      | cons b0 rest => simp [QuilVisitor.visit]
  | CNOT bits | CZ bits | Swap bits =>
      cases bits with
      | nil => simp [Instruction.wellFormed] at hwf
      | cons b0 rest =>
          cases rest with
          | nil => simp [Instruction.wellFormed] at hwf
          | cons b1 rest => simp [QuilVisitor.visit]
  | Rx bits ps | Ry bits ps | Rz bits ps =>
      cases bits with
      | nil => simp [Instruction.wellFormed] at hwf
      | cons b0 rest =>
          cases ps with
          | nil => simp [Instruction.wellFormed] at hwf
          | cons p ps => simp [QuilVisitor.visit]
  | CPhase bits ps =>
      cases bits with
      | nil => simp [Instruction.wellFormed] at hwf
      | cons b0 rest =>
          cases rest with
          | nil => simp [Instruction.wellFormed] at hwf
          | cons b1 rest =>
              cases ps with
              | nil => simp [Instruction.wellFormed] at hwf
              | cons p ps => simp [QuilVisitor.visit]

theorem conditionQubits_cons {P : Type} (i : Instruction P) (rest : List (Instruction P)) :
    conditionQubits (i :: rest) = conditionQubits [i] ++ conditionQubits rest := by
  cases i <;> simp [conditionQubits]

/-- The decimal text of an integer holds no character other than digits and the minus
sign. -/
theorem to_string_not_mem (c : Char) (hdigit : ∀ n < 10, Nat.digitChar n ≠ c)
    (hminus : c ≠ '-') (n : Int) : c ∉ (to_string n).data := by
  have hcore : ∀ (fuel m : Nat) (acc : List Char), c ∉ acc →
      c ∉ Nat.toDigitsCore 10 fuel m acc := by
    intro fuel
    induction fuel with
    | zero => intro m acc hacc; simpa [Nat.toDigitsCore] using hacc
    | succ f ih =>
        intro m acc hacc
        have hcons : c ∉ Nat.digitChar (m % 10) :: acc := by
          simp only [List.mem_cons, not_or]
          exact ⟨fun h => hdigit _ (Nat.mod_lt _ (by decide)) h.symm, hacc⟩
        simp only [Nat.toDigitsCore]
        split
        · exact hcons
        · exact ih _ _ hcons
  have hrepr : ∀ m : Nat, c ∉ (Nat.repr m).data := by
    intro m
    simp only [Nat.repr, Nat.toDigits, List.asString]
    exact hcore _ _ _ (by simp)
  cases n with
  | ofNat m => exact hrepr m
  | negSucc m =>
      show c ∉ ("-" ++ Nat.repr (m + 1)).data
      rw [String.data_append, List.mem_append, not_or]
      refine ⟨?_, hrepr _⟩
      show c ∉ ['-']
      simpa using hminus

theorem to_string_no_comma (n : Int) : ',' ∉ (to_string n).data :=
  to_string_not_mem ',' (by decide) (by decide) n

theorem to_string_no_blank (n : Int) : ' ' ∉ (to_string n).data :=
  to_string_not_mem ' ' (by decide) (by decide) n

theorem splitEntries_entry (e rest : List Char) (he : ',' ∉ e) :
    splitEntries (e ++ ',' :: rest) = e :: splitEntries rest := by
  induction e with
  | nil => simp [splitEntries]
  | cons c cs ih =>
      simp only [List.mem_cons, not_or] at he
      have hc : c ≠ ',' := fun h => he.1 h.symm
      simp [splitEntries, hc, ih he.2]

theorem dropWhile_blank_of_not_mem (e : List Char) (he : ' ' ∉ e) :
    e.dropWhile (fun c => c == ' ') = e := by
  cases e with
  | nil => rfl
  | cons c cs =>
      simp only [List.mem_cons, not_or] at he
      have hc : (c == ' ') = false := by
        simpa using fun h : c = ' ' => he.1 h.symm
      simp [List.dropWhile, hc]

theorem addressEntries_blank (x : List Char) :
    (splitEntries (' ' :: x)).map (fun e => String.mk (e.dropWhile (fun c => c == ' '))) =
      (splitEntries x).map (fun e => String.mk (e.dropWhile (fun c => c == ' '))) := by
  have hb : ' ' ≠ ',' := by decide
  simp only [splitEntries, hb, if_false]
  cases splitEntries x with
  | nil => rfl
  | cons e es => simp [List.dropWhile]

/-- The entries of the text accumulated for a list of addresses are the decimal texts of the
addresses. -/
theorem addressEntries_addressText (as : List Int) :
    addressEntries (addressText as) = as.map to_string := by
  induction as with
  | nil => rfl
  | cons a rest ih =>
      unfold addressEntries at ih ⊢
      have hdata : (addressText (a :: rest)).data =
          (to_string a).data ++ ',' :: ' ' :: (addressText rest).data := by
        simp [addressText, String.data_append]
      rw [hdata, splitEntries_entry _ _ (to_string_no_comma a), List.map_cons,
        addressEntries_blank, ih, dropWhile_blank_of_not_mem _ (to_string_no_blank a)]
      rfl

theorem linesText_append (xs ys : List String) :
    linesText (xs ++ ys) = linesText xs ++ linesText ys := by
  induction xs with
  | nil => simp [linesText]
  | cons x rest ih => simp [linesText, ih, String.append_assoc]

/-- Text appended by the visit of an instruction other than a conditional function. -/
theorem visit_flat_text {P : Type} (lexical_cast : P → String) (v w : QuilVisitor)
    (i : Instruction P) (hnc : i.isConditional = false)
    (h : QuilVisitor.visit lexical_cast v i = some w) :
    w.quilStr = v.quilStr ++ linesText (ownLines lexical_cast v.includeMeasures i) := by
  cases i with
  | ConditionalFunction name q body => simp [Instruction.isConditional] at hnc
  | GateFunction =>
      simp [QuilVisitor.visit] at h
      subst h
      simp [ownLines, formatEntry, linesText]
  | Measure bits a =>
      cases bits with
      | nil => simp [QuilVisitor.visit] at h
      | cons b0 rest =>
          cases hm : v.includeMeasures <;> simp [QuilVisitor.visit, hm] at h <;> subst h <;>
            simp [ownLines, linesText, hm, String.append_assoc]
  | Identity bits | X bits | Y bits | Z bits | Hadamard bits =>
      cases bits with
      | nil => simp [QuilVisitor.visit] at h
      | cons b0 rest =>
          simp [QuilVisitor.visit] at h
          subst h
          simp [ownLines, formatEntry, linesText, String.append_assoc]
  | CNOT bits | CZ bits | Swap bits =>
      cases bits with
      | nil => simp [QuilVisitor.visit] at h
      | cons b0 rest =>
          cases rest with
          | nil => simp [QuilVisitor.visit] at h
          | cons b1 rest =>
              simp [QuilVisitor.visit] at h
              subst h
              simp [ownLines, formatEntry, linesText, String.append_assoc]
  | Rx bits ps | Ry bits ps | Rz bits ps =>
      cases bits with
      | nil => cases ps <;> simp [QuilVisitor.visit] at h
      | cons b0 rest =>
          cases ps with
          | nil => simp [QuilVisitor.visit] at h
          | cons p ps =>
              simp [QuilVisitor.visit] at h
              subst h
              simp [ownLines, formatEntry, linesText, String.append_assoc]
  | CPhase bits ps =>
      cases bits with
      | nil => cases ps <;> simp [QuilVisitor.visit] at h
      | cons b0 rest =>
          cases rest with
          | nil => cases ps <;> simp [QuilVisitor.visit] at h
          | cons b1 rest =>
              cases ps with
              | nil => simp [QuilVisitor.visit] at h
              | cons p ps =>
                  simp [QuilVisitor.visit] at h
                  subst h
                  simp [ownLines, formatEntry, linesText, String.append_assoc]

/-- Text appended by the traversal of a sequence without conditional function. -/
theorem acceptAll_flat_text {P : Type} (lexical_cast : P → String)
    (instrs : List (Instruction P)) (v w : QuilVisitor)
    (hflat : ∀ i ∈ instrs, i.isConditional = false)
    (h : QuilVisitor.acceptAll lexical_cast v instrs = some w) :
    w.quilStr = v.quilStr ++ linesText (flatLines lexical_cast v.includeMeasures instrs) := by
  induction instrs generalizing v with
  | nil =>
      simp [QuilVisitor.acceptAll] at h
      subst h
      simp [flatLines, linesText]
  | cons i rest ih =>
      simp only [QuilVisitor.acceptAll] at h
      cases hv : QuilVisitor.visit lexical_cast v i with
      | none => simp [hv] at h
      | some v1 =>
          simp only [hv] at h
          have hm1 := (visit_bookkeeping lexical_cast v v1 i hv).1
          rw [ih v1 (fun x hx => hflat x (List.mem_cons_of_mem _ hx)) h,
            visit_flat_text lexical_cast v v1 i (hflat i (List.mem_cons_self _ _)) hv, hm1,
            flatLines, linesText_append, String.append_assoc]

/-- An instruction whose visit succeeds is well-formed. -/
theorem wellFormed_of_visit {P : Type} (lexical_cast : P → String) (v w : QuilVisitor)
    (i : Instruction P) (h : QuilVisitor.visit lexical_cast v i = some w) :
    i.wellFormed = true := by
  cases i with
  | ConditionalFunction name q body => rfl
  | GateFunction => rfl
  | Measure bits a =>
      cases bits with
      | nil => simp [QuilVisitor.visit] at h
      | cons b0 rest => simp [Instruction.wellFormed]
  | Identity bits | X bits | Y bits | Z bits | Hadamard bits =>
      cases bits with
      | nil => simp [QuilVisitor.visit] at h
      | cons b0 rest => simp [Instruction.wellFormed]
  | CNOT bits | CZ bits | Swap bits =>
      cases bits with
      | nil => simp [QuilVisitor.visit] at h
      | cons b0 rest =>
          cases rest with
          | nil => simp [QuilVisitor.visit] at h
          | cons b1 rest => simp [Instruction.wellFormed]
  | Rx bits ps | Ry bits ps | Rz bits ps =>
      cases bits with
      | nil => cases ps <;> simp [QuilVisitor.visit] at h
      | cons b0 rest =>
          cases ps with
          | nil => simp [QuilVisitor.visit] at h
          | cons p ps => simp [Instruction.wellFormed]
  | CPhase bits ps =>
      cases bits with
      | nil => cases ps <;> simp [QuilVisitor.visit] at h
      | cons b0 rest =>
          cases rest with
          | nil => cases ps <;> simp [QuilVisitor.visit] at h
          | cons b1 rest =>
              cases ps with
              | nil => simp [QuilVisitor.visit] at h
              | cons p ps => simp [Instruction.wellFormed]

theorem wellFormed_of_acceptAll {P : Type} (lexical_cast : P → String)
    (instrs : List (Instruction P)) (v w : QuilVisitor)
    (h : QuilVisitor.acceptAll lexical_cast v instrs = some w) :
    ∀ i ∈ instrs, i.wellFormed = true := by
  induction instrs generalizing v with
  | nil => intro i hi; simp at hi
  | cons x rest ih =>
      simp only [QuilVisitor.acceptAll] at h
      cases hv : QuilVisitor.visit lexical_cast v x with
      | none => simp [hv] at h
      | some v1 =>
          simp only [hv] at h
          intro i hi
          rcases List.mem_cons.mp hi with rfl | hi
          · exact wellFormed_of_visit lexical_cast v v1 _ hv
          · exact ih v1 h i hi

/-- A sequence of well-formed instructions without conditional function is traversed
successfully from every state. -/
theorem acceptAll_wellFormed {P : Type} (lexical_cast : P → String)
    (instrs : List (Instruction P)) (v : QuilVisitor)
    (hwf : ∀ i ∈ instrs, i.wellFormed = true)
    (hflat : ∀ i ∈ instrs, i.isConditional = false) :
    ∃ w, QuilVisitor.acceptAll lexical_cast v instrs = some w := by
  induction instrs generalizing v with
  | nil => exact ⟨v, rfl⟩
  | cons i rest ih =>
      obtain ⟨v1, hv1⟩ := visit_wellFormed lexical_cast v i
        (hwf i (List.mem_cons_self _ _)) (hflat i (List.mem_cons_self _ _))
      obtain ⟨w, hw⟩ := ih v1 (fun x hx => hwf x (List.mem_cons_of_mem _ hx))
        (fun x hx => hflat x (List.mem_cons_of_mem _ hx))
      exact ⟨w, by simp only [QuilVisitor.acceptAll, hv1, hw]⟩

theorem recordedAddresses_append {P : Type} (s1 s2 : List (Instruction P)) :
    recordedAddresses (s1 ++ s2) = recordedAddresses s1 ++ recordedAddresses s2 := by
  induction s1 with
  | nil => rfl
  | cons i rest ih =>
      rw [List.cons_append, recordedAddresses_cons, ih, recordedAddresses_cons i rest,
        List.append_assoc]

theorem dropWhile_ne_append (c : Char) (xs ys : List Char) (h : c ∉ xs) :
    (xs ++ c :: ys).dropWhile (fun x => x != c) = c :: ys := by
  induction xs with
  | nil => simp [List.dropWhile]
  | cons x rest ih =>
      simp only [List.mem_cons, not_or] at h
      have hx : (x != c) = true := by
        simpa using fun e : x = c => h.1 e.symm
      simp [List.dropWhile, hx, ih h.2]

theorem takeWhile_ne_append (c : Char) (xs ys : List Char) (h : c ∉ xs) :
    (xs ++ c :: ys).takeWhile (fun x => x != c) = xs := by
  induction xs with
  | nil => simp [List.takeWhile]
  | cons x rest ih =>
      simp only [List.mem_cons, not_or] at h
      have hx : (x != c) = true := by
        simpa using fun e : x = c => h.1 e.symm
      simp [List.takeWhile, hx, ih h.2]

theorem to_string_no_open_bracket (n : Int) : '[' ∉ (to_string n).data :=
  to_string_not_mem '[' (by decide) (by decide) n

theorem to_string_no_close_bracket (n : Int) : ']' ∉ (to_string n).data :=
  to_string_not_mem ']' (by decide) (by decide) n

/-- Characters of a `MEASURE` line. -/
theorem measureLine_data (q a : Int) :
    ("MEASURE " ++ to_string q ++ " [" ++ to_string a ++ "]").data =
      ("MEASURE ".data ++ (to_string q).data ++ [' ']) ++ '[' ::
        ((to_string a).data ++ ']' :: []) := by
  simp only [String.data_append]
  simp

theorem isMeasureLine_measureLine (q a : Int) :
    isMeasureLine ("MEASURE " ++ to_string q ++ " [" ++ to_string a ++ "]") = true := by
  unfold isMeasureLine
  rw [List.isPrefixOf_iff_prefix, measureLine_data, List.append_assoc, List.append_assoc]
  exact List.prefix_append _ _

theorem bracketText_measureLine (q a : Int) :
    bracketText ("MEASURE " ++ to_string q ++ " [" ++ to_string a ++ "]") = to_string a := by
  unfold bracketText
  have hpre : '[' ∉ "MEASURE ".data ++ (to_string q).data ++ [' '] := by
    simp only [List.mem_append, not_or]
    exact ⟨⟨by decide, to_string_no_open_bracket q⟩, by decide⟩
  rw [measureLine_data, dropWhile_ne_append _ _ _ hpre, List.drop_one, List.tail_cons,
    takeWhile_ne_append _ _ _ (to_string_no_close_bracket a)]

theorem measureLine_no_newline (q a : Int) :
    '\n' ∉ ("MEASURE " ++ to_string q ++ " [" ++ to_string a ++ "]").data := by
  have hs := to_string_no_newline
  simp [String.data_append, hs]

theorem isMeasureLine_formatEntry {P : Type} (lexical_cast : P → String) (i : Instruction P)
    (e : String) (h : formatEntry lexical_cast i = some e) : isMeasureLine e = false := by
  unfold formatEntry at h
  split at h <;> simp at h <;> subst h <;> rfl

/-- The lines of an instruction are the `MEASURE` line of a measurement or the format-table
line of a gate. -/
theorem ownLines_cases {P : Type} (lexical_cast : P → String) (measures : Bool)
    (i : Instruction P) :
    ownLines lexical_cast measures i = (formatEntry lexical_cast i).toList ∨
    ∃ q bits a, i = .Measure (q :: bits) a ∧
      ownLines lexical_cast measures i =
        if measures then ["MEASURE " ++ to_string q ++ " [" ++ to_string a ++ "]"] else [] := by
  cases i with
  | Measure bits a =>
      cases bits with
      | nil => left; simp [ownLines]
      | cons q rest => right; exact ⟨q, rest, a, rfl, by simp [ownLines]⟩
  | _ => left; simp [ownLines]

theorem ownLines_no_newline {P : Type} (lexical_cast : P → String)
    (hcast : ∀ p, '\n' ∉ (lexical_cast p).data) (measures : Bool) (i : Instruction P) :
    ∀ l ∈ ownLines lexical_cast measures i, '\n' ∉ l.data := by
  intro l hl
  rcases ownLines_cases lexical_cast measures i with h | ⟨q, bits, a, _, h⟩
  · rw [h] at hl
    exact formatEntry_no_newline lexical_cast hcast i l (by simpa using hl)
  · rw [h] at hl
    cases measures with
    | false => simp at hl
    | true =>
        simp only [if_true, List.mem_singleton] at hl
        subst hl
        exact measureLine_no_newline q a

theorem flatLines_no_newline {P : Type} (lexical_cast : P → String)
    (hcast : ∀ p, '\n' ∉ (lexical_cast p).data) (measures : Bool)
    (instrs : List (Instruction P)) :
    ∀ l ∈ flatLines lexical_cast measures instrs, '\n' ∉ l.data := by
  induction instrs with
  | nil => intro l hl; simp [flatLines] at hl
  | cons i rest ih =>
      intro l hl
      simp only [flatLines, List.mem_append] at hl
      rcases hl with hl | hl
      · exact ownLines_no_newline lexical_cast hcast measures i l hl
      · exact ih l hl

/-- The `MEASURE` lines among the lines of a well-formed instruction in record mode carry
the addresses it records. -/
theorem ownLines_measure {P : Type} (lexical_cast : P → String) (i : Instruction P)
    (hwf : i.wellFormed = true) :
    ((ownLines lexical_cast true i).filter isMeasureLine).map bracketText =
      (recordedAddresses [i]).map to_string := by
  rcases ownLines_cases lexical_cast true i with h | ⟨q, bits, a, hi, h⟩
  · rw [h]
    have hrec : recordedAddresses [i] = [] := by
      cases i with
      | Measure bits a =>
          cases bits with
          | nil => simp [Instruction.wellFormed] at hwf
          | cons q rest => simp [ownLines, formatEntry] at h
      | _ => simp [recordedAddresses]
    rw [hrec]
    cases he : formatEntry lexical_cast i with
    | none => simp
    | some e => simp [isMeasureLine_formatEntry lexical_cast i e he]
  · rw [h, hi]
    simp [recordedAddresses, isMeasureLine_measureLine, bracketText_measureLine]

theorem flatLines_measure {P : Type} (lexical_cast : P → String)
    (instrs : List (Instruction P)) (hwf : ∀ i ∈ instrs, i.wellFormed = true) :
    ((flatLines lexical_cast true instrs).filter isMeasureLine).map bracketText =
      (recordedAddresses instrs).map to_string := by
  induction instrs with
  | nil => rfl
  | cons i rest ih =>
      rw [flatLines, List.filter_append, List.map_append,
        ownLines_measure lexical_cast i (hwf i (List.mem_cons_self _ _)),
        ih (fun x hx => hwf x (List.mem_cons_of_mem _ hx)), recordedAddresses_cons i rest,
        List.map_append]

theorem jumpsBalanced_nil : JumpsBalanced [] 0 :=
  ⟨by simp, fun _ _ => rfl, rfl, rfl⟩

theorem jumpsBalanced_append (xs ys : List String) (n m : Nat) (hx : JumpsBalanced xs n)
    (hy : JumpsBalanced ys m) : JumpsBalanced (xs ++ ys) (n + m) := by
  obtain ⟨x1, x2, x3, x4⟩ := hx
  obtain ⟨y1, y2, y3, y4⟩ := hy
  refine ⟨?_, ?_, ?_, ?_⟩
  · intro l hl
    rcases List.mem_append.mp hl with h | h
    · exact x1 l h
    · exact y1 l h
  · intro stack rest
    rw [List.append_assoc, x2, y2]
  · rw [List.filter_append, List.length_append, x3, y3]
  · rw [List.filter_append, List.length_append, x4, y4]

/-- Lines that are neither jump nor label lines are balanced with count zero. -/
theorem jumpsBalanced_plain (ls : List String) (hnl : ∀ l ∈ ls, '\n' ∉ l.data)
    (hj : ∀ l ∈ ls, isJumpLine l = false) (hl : ∀ l ∈ ls, isLabelLine l = false) :
    JumpsBalanced ls 0 := by
  induction ls with
  | nil => exact jumpsBalanced_nil
  | cons x rest ih =>
      obtain ⟨r1, r2, r3, r4⟩ := ih (fun l h => hnl l (List.mem_cons_of_mem _ h))
        (fun l h => hj l (List.mem_cons_of_mem _ h)) (fun l h => hl l (List.mem_cons_of_mem _ h))
      have hjx := hj x (List.mem_cons_self _ _)
      have hlx := hl x (List.mem_cons_self _ _)
      refine ⟨hnl, ?_, ?_, ?_⟩
      · intro stack rest'
        simp only [List.cons_append, wellNested, hjx, hlx, Bool.false_eq_true, if_false]
        exact r2 stack rest'
      · simp [List.filter_cons, hjx, r3]
      · simp [List.filter_cons, hlx, r4]

theorem jumpLine_data (L : String) (a : Int) :
    ("JUMP-UNLESS @" ++ L ++ " [" ++ to_string a ++ "]").data =
      "JUMP-UNLESS @".data ++ (L.data ++ ' ' :: '[' :: ((to_string a).data ++ [']'])) := by
  simp only [String.data_append]
  simp

theorem isJumpLine_jumpLine (L : String) (a : Int) :
    isJumpLine ("JUMP-UNLESS @" ++ L ++ " [" ++ to_string a ++ "]") = true := by
  unfold isJumpLine
  rw [List.isPrefixOf_iff_prefix, jumpLine_data]
  exact List.prefix_append _ _

theorem isLabelLine_jumpLine (L : String) (a : Int) :
    isLabelLine ("JUMP-UNLESS @" ++ L ++ " [" ++ to_string a ++ "]") = false := rfl

theorem jumpLabel_jumpLine (L : String) (a : Int) :
    jumpLabel ("JUMP-UNLESS @" ++ L ++ " [" ++ to_string a ++ "]") = L := by
  unfold jumpLabel
  have hrev : ("JUMP-UNLESS @".data ++
      (L.data ++ ' ' :: '[' :: ((to_string a).data ++ [']']))).reverse =
      (']' :: (to_string a).data.reverse) ++ '[' ::
        (' ' :: (L.data.reverse ++ "JUMP-UNLESS @".data.reverse)) := by
    simp
  have hpre : '[' ∉ ']' :: (to_string a).data.reverse := by
    simp only [List.mem_cons, List.mem_reverse, not_or]
    exact ⟨by decide, to_string_no_open_bracket a⟩
  rw [jumpLine_data, hrev, dropWhile_ne_append _ _ _ hpre]
  have hdrop : ('[' :: ' ' :: (L.data.reverse ++ "JUMP-UNLESS @".data.reverse)).drop 2 =
      L.data.reverse ++ "JUMP-UNLESS @".data.reverse := rfl
  rw [hdrop, List.reverse_append, List.reverse_reverse, List.reverse_reverse]
  rfl

theorem jumpLine_no_newline (L : String) (a : Int) (hL : '\n' ∉ L.data) :
    '\n' ∉ ("JUMP-UNLESS @" ++ L ++ " [" ++ to_string a ++ "]").data := by
  have hs := to_string_no_newline
  simp [String.data_append, hs, hL]

theorem isJumpLine_labelLine (L : String) : isJumpLine ("LABEL @" ++ L) = false := rfl

theorem isLabelLine_labelLine (L : String) : isLabelLine ("LABEL @" ++ L) = true := by
  unfold isLabelLine
  rw [List.isPrefixOf_iff_prefix, String.data_append]
  exact List.prefix_append _ _

theorem labelName_labelLine (L : String) : labelName ("LABEL @" ++ L) = L := rfl

theorem labelLine_no_newline (L : String) (hL : '\n' ∉ L.data) :
    '\n' ∉ ("LABEL @" ++ L).data := by
  simp [String.data_append, hL]

theorem isJumpLine_formatEntry {P : Type} (lexical_cast : P → String) (i : Instruction P)
    (e : String) (h : formatEntry lexical_cast i = some e) : isJumpLine e = false := by
  unfold formatEntry at h
  split at h <;> simp at h <;> subst h <;> rfl

theorem isLabelLine_formatEntry {P : Type} (lexical_cast : P → String) (i : Instruction P)
    (e : String) (h : formatEntry lexical_cast i = some e) : isLabelLine e = false := by
  unfold formatEntry at h
  split at h <;> simp at h <;> subst h <;> rfl

/-- The lines of an instruction other than a conditional function are neither jump nor
label lines. -/
theorem ownLines_plain {P : Type} (lexical_cast : P → String) (measures : Bool)
    (i : Instruction P) :
    ∀ l ∈ ownLines lexical_cast measures i, isJumpLine l = false ∧ isLabelLine l = false := by
  intro l hl
  rcases ownLines_cases lexical_cast measures i with h | ⟨q, bits, a, _, h⟩
  · rw [h] at hl
    have he : formatEntry lexical_cast i = some l := by simpa using hl
    exact ⟨isJumpLine_formatEntry lexical_cast i l he, isLabelLine_formatEntry lexical_cast i l he⟩
  · rw [h] at hl
    cases measures with
    | false => simp at hl
    | true =>
        simp only [if_true, List.mem_singleton] at hl
        subst hl
        exact ⟨rfl, rfl⟩

/-- A jump line, balanced lines and the label line of the same label are balanced, with one
more jump and label line. -/
theorem jumpsBalanced_block (L : String) (a : Int) (ls : List String) (n : Nat)
    (hL : '\n' ∉ L.data) (hls : JumpsBalanced ls n) :
    JumpsBalanced (("JUMP-UNLESS @" ++ L ++ " [" ++ to_string a ++ "]") ::
      (ls ++ ["LABEL @" ++ L])) (1 + n) := by
  obtain ⟨h1, h2, h3, h4⟩ := hls
  refine ⟨?_, ?_, ?_, ?_⟩
  · intro l hl
    simp only [List.mem_cons, List.mem_append, List.mem_singleton, List.not_mem_nil,
      or_false] at hl
    rcases hl with rfl | hl | rfl
    · exact jumpLine_no_newline L a hL
    · exact h1 l hl
    · exact labelLine_no_newline L hL
  · intro stack rest
    simp only [List.cons_append, List.append_assoc, List.nil_append]
    simp only [wellNested, isJumpLine_jumpLine, if_true, jumpLabel_jumpLine]
    rw [h2]
    simp [wellNested, isJumpLine_labelLine, isLabelLine_labelLine, labelName_labelLine]
  · rw [List.filter_cons, isJumpLine_jumpLine, if_pos rfl, List.filter_append,
      List.length_cons, List.length_append, h3]
    simp [List.filter_cons, isJumpLine_labelLine]
    omega
  · rw [List.filter_cons, isLabelLine_jumpLine, List.filter_append]
    simp only [Bool.false_eq_true, if_false, List.length_append, h4]
    simp [List.filter_cons, isLabelLine_labelLine]
    omega

theorem countConditionals_flat {P : Type} (i : Instruction P)
    (hnc : i.isConditional = false) : countConditionals i = 0 := by
  cases i <;> first | rfl | simp [Instruction.isConditional] at hnc

/-- Lines appended by the visit of an instruction other than a conditional function. -/
theorem visit_plain_lines {P : Type} (lexical_cast : P → String)
    (hcast : ∀ p, '\n' ∉ (lexical_cast p).data) (i : Instruction P) (v w : QuilVisitor)
    (hnc : i.isConditional = false)
    (h : QuilVisitor.visit lexical_cast v i = some w) :
    ∃ ls, w.quilStr = v.quilStr ++ linesText ls ∧ JumpsBalanced ls (countConditionals i) := by
  refine ⟨ownLines lexical_cast v.includeMeasures i,
    visit_flat_text lexical_cast v w i hnc h, ?_⟩
  rw [countConditionals_flat i hnc]
  exact jumpsBalanced_plain _ (ownLines_no_newline lexical_cast hcast _ i)
    (fun l hl => (ownLines_plain lexical_cast _ i l hl).1)
    (fun l hl => (ownLines_plain lexical_cast _ i l hl).2)

mutual
/-- Lines appended by a visit: jump and label lines are balanced and nested, one pair for
each conditional function of the instruction. -/
theorem visit_lines {P : Type} (lexical_cast : P → String)
    (hcast : ∀ p, '\n' ∉ (lexical_cast p).data) :
    ∀ (i : Instruction P) (v w : QuilVisitor), labelsWithoutLineBreak i = true →
      QuilVisitor.visit lexical_cast v i = some w →
      ∃ ls, w.quilStr = v.quilStr ++ linesText ls ∧ JumpsBalanced ls (countConditionals i)
  | .ConditionalFunction name q body, v, w, hlab, h => by
      rw [visit_conditional] at h
      simp only [labelsWithoutLineBreak, Bool.and_eq_true, decide_eq_true_eq] at hlab
      cases hb : QuilVisitor.acceptAll lexical_cast QuilVisitor.init body with
      | none => simp [hb] at h
      | some sub =>
          obtain ⟨ls, hls, hbal⟩ := acceptAll_lines lexical_cast hcast body _ sub hlab.2 hb
          simp [hb] at h
          subst h
          refine ⟨_, ?_, jumpsBalanced_block name (v.qubitToClassicalBitIndex.index q).1 ls
            (countConditionalsList body) hlab.1 hbal⟩
          have h0 : QuilVisitor.init.quilStr = "" := rfl
          have hbr : "]" ++ "\n" = "]\n" := by decide
          simp only [hls, h0, linesText, linesText_append, String.append_assoc,
            String.empty_append, String.append_empty, hbr]
  | .Identity bits, v, w, _, h => visit_plain_lines lexical_cast hcast _ v w rfl h
  | .X bits, v, w, _, h => visit_plain_lines lexical_cast hcast _ v w rfl h
  | .Y bits, v, w, _, h => visit_plain_lines lexical_cast hcast _ v w rfl h
  | .Z bits, v, w, _, h => visit_plain_lines lexical_cast hcast _ v w rfl h
  | .Hadamard bits, v, w, _, h => visit_plain_lines lexical_cast hcast _ v w rfl h
  | .CNOT bits, v, w, _, h => visit_plain_lines lexical_cast hcast _ v w rfl h
  | .CZ bits, v, w, _, h => visit_plain_lines lexical_cast hcast _ v w rfl h
  | .Rx bits ps, v, w, _, h => visit_plain_lines lexical_cast hcast _ v w rfl h
  | .Ry bits ps, v, w, _, h => visit_plain_lines lexical_cast hcast _ v w rfl h
  | .Rz bits ps, v, w, _, h => visit_plain_lines lexical_cast hcast _ v w rfl h
  | .CPhase bits ps, v, w, _, h => visit_plain_lines lexical_cast hcast _ v w rfl h
  | .Swap bits, v, w, _, h => visit_plain_lines lexical_cast hcast _ v w rfl h
  | .Measure bits a, v, w, _, h => visit_plain_lines lexical_cast hcast _ v w rfl h
  | .GateFunction, v, w, _, h => visit_plain_lines lexical_cast hcast _ v w rfl h
/-- Lines appended by a traversal: jump and label lines are balanced and nested, one pair
for each conditional function of the sequence. -/
theorem acceptAll_lines {P : Type} (lexical_cast : P → String)
    (hcast : ∀ p, '\n' ∉ (lexical_cast p).data) :
    ∀ (instrs : List (Instruction P)) (v w : QuilVisitor),
      labelsWithoutLineBreakList instrs = true →
      QuilVisitor.acceptAll lexical_cast v instrs = some w →
      ∃ ls, w.quilStr = v.quilStr ++ linesText ls ∧
        JumpsBalanced ls (countConditionalsList instrs)
  | [], v, w, _, h => by
      simp [QuilVisitor.acceptAll] at h
      subst h
      exact ⟨[], by simp [linesText], jumpsBalanced_nil⟩
  | i :: rest, v, w, hlab, h => by
      simp only [labelsWithoutLineBreakList, Bool.and_eq_true] at hlab
      simp only [QuilVisitor.acceptAll] at h
      cases hv : QuilVisitor.visit lexical_cast v i with
      | none => simp [hv] at h
      | some v1 =>
          simp only [hv] at h
          obtain ⟨l1, t1, b1⟩ := visit_lines lexical_cast hcast i v v1 hlab.1 hv
          obtain ⟨l2, t2, b2⟩ := acceptAll_lines lexical_cast hcast rest v1 w hlab.2 h
          refine ⟨l1 ++ l2, ?_, ?_⟩
          · rw [t2, t1, linesText_append, String.append_assoc]
          · simp only [countConditionalsList]
            exact jumpsBalanced_append l1 l2 _ _ b1 b2
end

theorem lookup_append_of_some (m m2 : IntMap) (q a : Int) (h : m.lookup q = some a) :
    (m ++ m2).lookup q = some a := by
  induction m with
  | nil => simp at h
  | cons e rest ih =>
      obtain ⟨k, b⟩ := e
      simp only [List.cons_append, List.lookup_cons] at h ⊢
      cases hk : (q == k) with
      | true => simpa [hk] using h
      | false =>
          simp only [hk] at h ⊢
          exact ih h

theorem find_insert_of_some (m : IntMap) (q a k b : Int) (h : m.find q = some a) :
    (m.insert k b).find q = some a := by
  unfold IntMap.find at h ⊢
  unfold IntMap.insert
  split
  · exact h
  · exact lookup_append_of_some m _ q a h

theorem find_insert_self (m : IntMap) (q a : Int) : ∃ b, (m.insert q a).find q = some b := by
  unfold IntMap.find IntMap.insert
  cases hq : m.lookup q with
  | some b => exact ⟨b, by simp [hq]⟩
  | none =>
      refine ⟨a, ?_⟩
      simp only
      induction m with
      | nil => simp [List.lookup]
      | cons e rest ih =>
          obtain ⟨k, b⟩ := e
          simp only [List.lookup_cons] at hq
          cases hk : (q == k) with
          | true => simp [hk] at hq
          | false =>
              simp only [hk] at hq
              simp only [List.cons_append, List.lookup_cons, hk]
              exact ih hq

theorem find_index_of_some (m : IntMap) (q a k : Int) (h : m.find q = some a) :
    (m.index k).2.find q = some a := by
  unfold IntMap.find at h ⊢
  unfold IntMap.index
  split
  · exact h
  · exact lookup_append_of_some m _ q a h

/-- An entry of the qubit-to-address map survives every visit with its value. -/
theorem visit_keeps_entry {P : Type} (lexical_cast : P → String) (v w : QuilVisitor)
    (i : Instruction P) (q a : Int) (hq : v.qubitToClassicalBitIndex.find q = some a)
    (h : QuilVisitor.visit lexical_cast v i = some w) :
    w.qubitToClassicalBitIndex.find q = some a := by
  cases i with
  | ConditionalFunction name k body =>
      rw [visit_conditional] at h
      cases hb : QuilVisitor.acceptAll lexical_cast QuilVisitor.init body with
      | none => simp [hb] at h
      | some sub =>
          simp [hb] at h
          subst h
          exact find_index_of_some _ q a k hq
  | Measure bits b =>
      cases bits with
      | nil => simp [QuilVisitor.visit] at h
      | cons b0 rest =>
          cases hm : v.includeMeasures <;> simp [QuilVisitor.visit, hm] at h <;> subst h
          · exact hq
          · exact find_insert_of_some _ q a b0 b hq
  | GateFunction =>
      simp [QuilVisitor.visit] at h
      subst h
      exact hq
  | _ =>
      simp only [QuilVisitor.visit] at h
      split at h
      · simp at h
        subst h
        exact hq
      · simp at h

theorem acceptAll_keeps_entry {P : Type} (lexical_cast : P → String)
    (instrs : List (Instruction P)) (v w : QuilVisitor) (q a : Int)
    (hq : v.qubitToClassicalBitIndex.find q = some a)
    (h : QuilVisitor.acceptAll lexical_cast v instrs = some w) :
    w.qubitToClassicalBitIndex.find q = some a := by
  induction instrs generalizing v with
  | nil =>
      simp [QuilVisitor.acceptAll] at h
      subst h
      exact hq
  | cons i rest ih =>
      simp only [QuilVisitor.acceptAll] at h
      cases hv : QuilVisitor.visit lexical_cast v i with
      | none => simp [hv] at h
      | some v1 =>
          simp only [hv] at h
          exact ih v1 (visit_keeps_entry lexical_cast v v1 i q a hq hv) h

/-- In record mode a qubit measured by the visitor has an entry in the qubit-to-address
map from then on. -/
theorem acceptAll_record_entry {P : Type} (lexical_cast : P → String)
    (instrs : List (Instruction P)) (v w : QuilVisitor) (q : Int)
    (hmode : v.includeMeasures = true) (hmem : q ∈ measuredTargets instrs)
    (h : QuilVisitor.acceptAll lexical_cast v instrs = some w) :
    ∃ a, w.qubitToClassicalBitIndex.find q = some a := by
  induction instrs generalizing v with
  | nil => simp [measuredTargets] at hmem
  | cons i rest ih =>
      simp only [QuilVisitor.acceptAll] at h
      cases hv : QuilVisitor.visit lexical_cast v i with
      | none => simp [hv] at h
      | some v1 =>
          simp only [hv] at h
          have hm1 : v1.includeMeasures = true :=
            (visit_bookkeeping lexical_cast v v1 i hv).1.trans hmode
          rw [measuredTargets_cons, List.mem_append] at hmem
          rcases hmem with hhead | htail
          · have hentry : ∃ a, v1.qubitToClassicalBitIndex.find q = some a := by
              cases i with
              | Measure bits b =>
                  cases bits with
                  | nil => simp [measuredTargets] at hhead
                  | cons b0 bs =>
                      simp [measuredTargets] at hhead
                      subst hhead
                      simp [QuilVisitor.visit, hmode] at hv
                      subst hv
                      exact find_insert_self _ q b
              | _ => simp [measuredTargets] at hhead
            obtain ⟨a, ha⟩ := hentry
            exact ⟨a, acceptAll_keeps_entry lexical_cast rest v1 w q a ha h⟩
          · exact ih v1 hm1 htail h

/-- A conditional function whose condition qubit has an entry in the qubit-to-address map
changes the text only. -/
theorem visit_conditional_entry {P : Type} (lexical_cast : P → String)
    (v sub : QuilVisitor) (L : String) (q a : Int) (body : List (Instruction P))
    (hq : v.qubitToClassicalBitIndex.find q = some a)
    (hsub : QuilVisitor.acceptAll lexical_cast QuilVisitor.init body = some sub) :
    ∃ w, QuilVisitor.visit lexical_cast v (.ConditionalFunction L q body) = some w ∧
      w.classicalAddresses = v.classicalAddresses ∧
      w.getNumberOfAddresses = v.getNumberOfAddresses ∧
      w.qubitToClassicalBitIndex = v.qubitToClassicalBitIndex ∧
      w.getMeasuredQubits = v.getMeasuredQubits ∧
      w.includeMeasures = v.includeMeasures ∧
      w.getQuilString = v.getQuilString ++
        (("JUMP-UNLESS @" ++ L ++ " [" ++ to_string a ++ "]\n") ++ sub.quilStr
          ++ ("LABEL @" ++ L ++ "\n")) := by
  rw [visit_conditional, hsub, index_of_find_some _ _ _ hq]
  refine ⟨_, rfl, rfl, rfl, rfl, rfl, rfl, ?_⟩
  simp only [QuilVisitor.getQuilString, String.append_assoc]

theorem index_map_mem (m : IntMap) (q : Int) (e : Int × Int) (he : e ∈ (m.index q).2) :
    e ∈ m ∨ e = (q, 0) := by
  unfold IntMap.index at he
  split at he
  · exact Or.inl he
  · simp only [List.mem_append, List.mem_singleton] at he
    exact he

/-- Qubit-to-address map across one discard-mode visit: only a conditional function touches
it, and what it adds is the entry `(q, 0)` of its condition qubit. -/
theorem visit_discard_map {P : Type} (lexical_cast : P → String) (v w : QuilVisitor)
    (i : Instruction P) (hmode : v.includeMeasures = false)
    (h : QuilVisitor.visit lexical_cast v i = some w) :
    (∀ e ∈ w.qubitToClassicalBitIndex,
      e ∈ v.qubitToClassicalBitIndex ∨ (e.2 = 0 ∧ e.1 ∈ conditionQubits [i])) ∧
    (conditionQubits [i] = [] → w.qubitToClassicalBitIndex = v.qubitToClassicalBitIndex) := by
  cases i with
  | ConditionalFunction name q body =>
      rw [visit_conditional] at h
      cases hb : QuilVisitor.acceptAll lexical_cast QuilVisitor.init body with
      | none => simp [hb] at h
      | some sub =>
          simp [hb] at h
          subst h
          refine ⟨?_, by simp [conditionQubits]⟩
          intro e he
          rcases index_map_mem _ _ _ he with h1 | h1
          · exact Or.inl h1
          · right
            subst h1
            simp [conditionQubits]
  | Measure bits a =>
      cases bits with
      | nil => simp [QuilVisitor.visit] at h
      | cons b0 rest =>
          simp [QuilVisitor.visit, hmode] at h
          subst h
          exact ⟨fun e he => Or.inl he, fun _ => rfl⟩
  | GateFunction =>
      simp [QuilVisitor.visit] at h
      subst h
      exact ⟨fun e he => Or.inl he, fun _ => rfl⟩
  | _ =>
      simp only [QuilVisitor.visit] at h
      split at h
      · simp at h
        subst h
        exact ⟨fun e he => Or.inl he, fun _ => rfl⟩
      · simp at h

/-- Qubit-to-address map across a discard-mode traversal. -/
theorem acceptAll_discard_map {P : Type} (lexical_cast : P → String)
    (instrs : List (Instruction P)) (v w : QuilVisitor) (hmode : v.includeMeasures = false)
    (h : QuilVisitor.acceptAll lexical_cast v instrs = some w) :
    (∀ e ∈ w.qubitToClassicalBitIndex,
      e ∈ v.qubitToClassicalBitIndex ∨ (e.2 = 0 ∧ e.1 ∈ conditionQubits instrs)) ∧
    (conditionQubits instrs = [] → w.qubitToClassicalBitIndex = v.qubitToClassicalBitIndex) := by
  induction instrs generalizing v with
  | nil =>
      simp [QuilVisitor.acceptAll] at h
      subst h
      exact ⟨fun e he => Or.inl he, fun _ => rfl⟩
  | cons i rest ih =>
      simp only [QuilVisitor.acceptAll] at h
      cases hv : QuilVisitor.visit lexical_cast v i with
      | none => simp [hv] at h
      | some v1 =>
          simp only [hv] at h
          have hm1 : v1.includeMeasures = false :=
            (visit_bookkeeping lexical_cast v v1 i hv).1.trans hmode
          obtain ⟨s1, s2⟩ := visit_discard_map lexical_cast v v1 i hmode hv
          obtain ⟨r1, r2⟩ := ih v1 hm1 h
          rw [conditionQubits_cons]
          constructor
          · intro e he
            rcases r1 e he with h1 | ⟨h1, h2⟩
            · rcases s1 e h1 with h3 | ⟨h3, h4⟩
              · exact Or.inl h3
              · exact Or.inr ⟨h3, List.mem_append_left _ h4⟩
            · exact Or.inr ⟨h1, List.mem_append_right _ h2⟩
          · intro hnil
            rw [List.append_eq_nil] at hnil
            rw [r2 hnil.2, s2 hnil.1]

/-! ## Claims -/

/-- C1 (as the code behaves): a conditional function whose condition qubit has no entry in
the qubit-to-address map does not make the visit fail.  The subscript inserts the entry
`(q, 0)`, and when the nested instructions are visited successfully the text gains the jump
line `JUMP-UNLESS @name [0]`, the nested text and the label line. -/
theorem C1_unmeasured_condition_defaults_to_zero {P : Type} (lexical_cast : P → String)
    (v sub : QuilVisitor) (name : String) (q : Int) (body : List (Instruction P))
    (habsent : v.qubitToClassicalBitIndex.find q = none)
    (hsub : QuilVisitor.acceptAll lexical_cast QuilVisitor.init body = some sub) :
    QuilVisitor.visit lexical_cast v (.ConditionalFunction name q body) =
      some { v with
        qubitToClassicalBitIndex := v.qubitToClassicalBitIndex ++ [(q, 0)]
        quilStr := v.quilStr ++ ("JUMP-UNLESS @" ++ name ++ " [0]\n") ++ sub.quilStr
          ++ ("LABEL @" ++ name ++ "\n") } := by
  have h0 : " [" ++ to_string 0 ++ "]\n" = " [0]\n" := by decide
  rw [visit_conditional, hsub, index_of_find_none _ _ habsent]
  simp only [Option.map_some', String.append_assoc, h0]

/-- Witness for C1: a record-mode visitor that measured qubit 1 only meets a conditional
function on qubit 0. -/
theorem C1_unmeasured_condition_defaults_to_zero_witness :
    QuilVisitor.visit (fun (p : Nat) => toString p)
        { quilStr := "MEASURE 1 [4]\n", classicalAddresses := "4, ",
          qubitToClassicalBitIndex := [(1, 4)], numAddresses := 1 }
        (.ConditionalFunction "L" 0 [.X [1]]) =
      some { quilStr := "MEASURE 1 [4]\nJUMP-UNLESS @L [0]\nX 1\nLABEL @L\n",
             classicalAddresses := "4, ",
             qubitToClassicalBitIndex := [(1, 4), (0, 0)], numAddresses := 1 } :=
  C1_unmeasured_condition_defaults_to_zero (fun (p : Nat) => toString p)
    { quilStr := "MEASURE 1 [4]\n", classicalAddresses := "4, ",
      qubitToClassicalBitIndex := [(1, 4)], numAddresses := 1 }
    { quilStr := "X 1\n" } "L" 0 [.X [1]] (by decide) (by decide)

/-- C1 (counterexample): a fresh visitor, in record mode and in discard mode, visits a
conditional function on the never measured qubit 0 without failing and emits the jump line
with address `0`. -/
theorem C1_counterexample :
    QuilVisitor.acceptAll (fun (p : Nat) => toString p) (QuilVisitor.initMeasures true)
        [.ConditionalFunction "L" 0 []] =
      some { quilStr := "JUMP-UNLESS @L [0]\nLABEL @L\n",
             qubitToClassicalBitIndex := [(0, 0)] } ∧
    QuilVisitor.acceptAll (fun (p : Nat) => toString p) (QuilVisitor.initMeasures false)
        [.ConditionalFunction "L" 0 []] =
      some { quilStr := "JUMP-UNLESS @L [0]\nLABEL @L\n",
             qubitToClassicalBitIndex := [(0, 0)], includeMeasures := false } := by
  decide

/-- C2 (what the code does): in record mode, after qubit `q` is measured at address `a`
and then again at address `a2`, the map entry for `q` is still `a`: the second
`std::map::insert` finds the key present and stores nothing.  A following conditional
function on `q` with label `L` emits `JUMP-UNLESS @L [a]`, not `[a2]`. -/
theorem C2_remeasurement_keeps_first_address {P : Type} (lexical_cast : P → String)
    (q a a2 : Int) (L : String) :
    QuilVisitor.acceptAll lexical_cast QuilVisitor.init
        [.Measure [q] a, .Measure [q] a2] =
      some { quilStr := ("MEASURE " ++ to_string q ++ " [" ++ to_string a ++ "]\n")
               ++ ("MEASURE " ++ to_string q ++ " [" ++ to_string a2 ++ "]\n"),
             classicalAddresses := (to_string a ++ ", ") ++ (to_string a2 ++ ", "),
             qubitToClassicalBitIndex := [(q, a)],
             numAddresses := 2 } ∧
    IntMap.find [(q, a)] q = some a ∧
    QuilVisitor.acceptAll lexical_cast QuilVisitor.init
        [.Measure [q] a, .Measure [q] a2, .ConditionalFunction L q []] =
      some { quilStr := ("MEASURE " ++ to_string q ++ " [" ++ to_string a ++ "]\n")
               ++ ("MEASURE " ++ to_string q ++ " [" ++ to_string a2 ++ "]\n")
               ++ ("JUMP-UNLESS @" ++ L ++ " [" ++ to_string a ++ "]\n")
               ++ ("LABEL @" ++ L ++ "\n"),
             classicalAddresses := (to_string a ++ ", ") ++ (to_string a2 ++ ", "),
             qubitToClassicalBitIndex := [(q, a)],
             numAddresses := 2 } := by
  have h2 : QuilVisitor.acceptAll lexical_cast QuilVisitor.init
        [.Measure [q] a, .Measure [q] a2] =
      some { quilStr := ("MEASURE " ++ to_string q ++ " [" ++ to_string a ++ "]\n")
               ++ ("MEASURE " ++ to_string q ++ " [" ++ to_string a2 ++ "]\n"),
             classicalAddresses := (to_string a ++ ", ") ++ (to_string a2 ++ ", "),
             qubitToClassicalBitIndex := [(q, a)],
             numAddresses := 2 } := by
    simp [QuilVisitor.acceptAll, QuilVisitor.visit, QuilVisitor.init, IntMap.insert]
  refine ⟨h2, by simp [IntMap.find], ?_⟩
  simp [QuilVisitor.acceptAll, QuilVisitor.visit, QuilVisitor.init, IntMap.insert,
    IntMap.index, QuilVisitor.getQuilString]

/-- C3 (record mode): for a record-mode visitor whose map holds address `a` for the
condition qubit `q`, visiting a conditional function with label `L` appends exactly
`JUMP-UNLESS @L [a]` and a line break, then the whole text of a new visitor of the same mode
run over the nested instructions, then `LABEL @L` and a line break. -/
theorem C3_record_conditional_text {P : Type} (lexical_cast : P → String)
    (v sub : QuilVisitor) (L : String) (q a : Int) (body : List (Instruction P))
    (hmode : v.includeMeasures = true)
    (hq : v.qubitToClassicalBitIndex.find q = some a)
    (hsub : QuilVisitor.acceptAll lexical_cast
      (QuilVisitor.initMeasures v.includeMeasures) body = some sub) :
    QuilVisitor.visit lexical_cast v (.ConditionalFunction L q body) =
      some { v with quilStr :=
        v.quilStr ++ ("JUMP-UNLESS @" ++ L ++ " [" ++ to_string a ++ "]\n") ++ sub.quilStr
          ++ ("LABEL @" ++ L ++ "\n") } := by
  rw [hmode] at hsub
  have hinit : QuilVisitor.initMeasures true = QuilVisitor.init := rfl
  rw [hinit] at hsub
  rw [visit_conditional, hsub, index_of_find_some _ _ _ hq]
  rfl

/-- Witness for C3: qubit 0 measured at address 5 in record mode, then a conditional
function on qubit 0 whose body measures qubit 1. -/
theorem C3_record_conditional_text_witness :
    QuilVisitor.visit (fun (p : Nat) => toString p)
        { quilStr := "MEASURE 0 [5]\n", classicalAddresses := "5, ",
          qubitToClassicalBitIndex := [(0, 5)], numAddresses := 1 }
        (.ConditionalFunction "L" 0 [.Measure [1] 7]) =
      some { quilStr := "MEASURE 0 [5]\nJUMP-UNLESS @L [5]\nMEASURE 1 [7]\nLABEL @L\n",
             classicalAddresses := "5, ",
             qubitToClassicalBitIndex := [(0, 5)], numAddresses := 1 } :=
  C3_record_conditional_text (fun (p : Nat) => toString p)
    { quilStr := "MEASURE 0 [5]\n", classicalAddresses := "5, ",
      qubitToClassicalBitIndex := [(0, 5)], numAddresses := 1 }
    { quilStr := "MEASURE 1 [7]\n", classicalAddresses := "7, ",
      qubitToClassicalBitIndex := [(1, 7)], numAddresses := 1 }
    "L" 0 5 [.Measure [1] 7] rfl (by decide) (by decide)

/-- C3 (counterexample): a discard-mode visitor measures qubit 0 at address 5 and then
visits a conditional function on qubit 0 whose body measures qubit 1.  The appended text is
`JUMP-UNLESS @L [0]`, `MEASURE 1 [7]`, `LABEL @L`; the text of the claim, built from address
5 and from a new discard-mode visitor run over the body, is `JUMP-UNLESS @L [5]`,
`LABEL @L`. -/
theorem C3_counterexample :
    ∃ v w sub : QuilVisitor,
      QuilVisitor.acceptAll (fun (p : Nat) => toString p) (QuilVisitor.initMeasures false)
        [.Measure [0] 5] = some v ∧
      QuilVisitor.visit (fun (p : Nat) => toString p) v
        (.ConditionalFunction "L" 0 [.Measure [1] 7]) = some w ∧
      QuilVisitor.acceptAll (fun (p : Nat) => toString p)
        (QuilVisitor.initMeasures v.includeMeasures) [.Measure [1] 7] = some sub ∧
      w.quilStr = v.quilStr ++ "JUMP-UNLESS @L [0]\nMEASURE 1 [7]\nLABEL @L\n" ∧
      v.quilStr ++ ("JUMP-UNLESS @" ++ "L" ++ " [" ++ to_string 5 ++ "]\n") ++ sub.quilStr
          ++ ("LABEL @" ++ "L" ++ "\n") = v.quilStr ++ "JUMP-UNLESS @L [5]\nLABEL @L\n" ∧
      w.quilStr ≠ v.quilStr ++ ("JUMP-UNLESS @" ++ "L" ++ " [" ++ to_string 5 ++ "]\n")
          ++ sub.quilStr ++ ("LABEL @" ++ "L" ++ "\n") := by
  refine ⟨{ measuredQubits := [0], includeMeasures := false },
    { quilStr := "JUMP-UNLESS @L [0]\nMEASURE 1 [7]\nLABEL @L\n", measuredQubits := [0],
      includeMeasures := false, qubitToClassicalBitIndex := [(0, 0)] },
    { measuredQubits := [1], includeMeasures := false }, ?_, ?_, ?_, ?_, ?_, ?_⟩ <;> decide

/-- C4 (what the code does): a discard-mode visitor that visits a conditional function whose
body holds a measurement emits that measurement's `MEASURE` line, because the nested visitor
is default-constructed and records measurements. -/
theorem C4_discard_nested_measure_line :
    ∃ v : QuilVisitor,
      QuilVisitor.acceptAll (fun (p : Nat) => toString p) (QuilVisitor.initMeasures false)
        [.ConditionalFunction "L" 0 [.Measure [1] 7]] = some v ∧
      v.includeMeasures = false ∧
      v.quilStr = "JUMP-UNLESS @L [0]\nMEASURE 1 [7]\nLABEL @L\n" ∧
      textLines v.quilStr = ["JUMP-UNLESS @L [0]", "MEASURE 1 [7]", "LABEL @L"] := by
  refine ⟨{ quilStr := "JUMP-UNLESS @L [0]\nMEASURE 1 [7]\nLABEL @L\n",
            includeMeasures := false, qubitToClassicalBitIndex := [(0, 0)] }, ?_, ?_, ?_, ?_⟩
    <;> decide

/-- C5: after a record-mode traversal whose recorded addresses `a0, ..., an` are not empty,
the address-list accessor returns `[`, the decimal texts of the addresses in order
(duplicates kept) separated by a comma and a space, and `]`, with no trailing comma.  The
accumulated text is a `std::string`, so its size is below `2 ^ 64`. -/
theorem C5_address_list_rendering {P : Type} (lexical_cast : P → String)
    (instrs : List (Instruction P)) (v : QuilVisitor)
    (hrun : QuilVisitor.acceptAll lexical_cast QuilVisitor.init instrs = some v)
    (hne : recordedAddresses instrs ≠ [])
    (hsize : v.classicalAddresses.length < 2 ^ 64) :
    v.getClassicalAddresses =
      some ("[" ++ ", ".intercalate ((recordedAddresses instrs).map to_string) ++ "]") := by
  have hbook := (acceptAll_bookkeeping lexical_cast instrs _ v hrun).2.1
  have htext : v.classicalAddresses = addressText (recordedAddresses instrs) := by
    rw [hbook]
    simp [QuilVisitor.init]
  exact getClassicalAddresses_addressText v _ hne htext hsize

/-- Witness for C5: the addresses 0, 2, 5 render to `[0, 2, 5]`. -/
theorem C5_address_list_rendering_witness :
    QuilVisitor.getClassicalAddresses
        { quilStr := "H 0\nMEASURE 0 [0]\nMEASURE 1 [2]\nMEASURE 0 [5]\n",
          classicalAddresses := "0, 2, 5, ",
          qubitToClassicalBitIndex := [(0, 0), (1, 2)], numAddresses := 3 } =
      some "[0, 2, 5]" :=
  C5_address_list_rendering (fun (p : Nat) => toString p)
    [.Hadamard [0], .Measure [0] 0, .Measure [1] 2, .Measure [0] 5]
    { quilStr := "H 0\nMEASURE 0 [0]\nMEASURE 1 [2]\nMEASURE 0 [5]\n",
      classicalAddresses := "0, 2, 5, ",
      qubitToClassicalBitIndex := [(0, 0), (1, 2)], numAddresses := 3 }
    (by decide) (by decide) (by decide)

/-- C6 (as the code behaves): after a traversal in either mode that recorded no measurement
address, the address-list accessor does not fail; it returns the text `[]`. -/
theorem C6_empty_address_list_renders_brackets {P : Type} (lexical_cast : P → String)
    (measures : Bool) (instrs : List (Instruction P)) (v : QuilVisitor)
    (hrun : QuilVisitor.acceptAll lexical_cast (QuilVisitor.initMeasures measures) instrs
      = some v)
    (hzero : v.getNumberOfAddresses = 0) :
    v.getClassicalAddresses = some "[]" := by
  obtain ⟨_, htext, hnum, _⟩ := acceptAll_bookkeeping lexical_cast instrs _ v hrun
  unfold QuilVisitor.getNumberOfAddresses at hzero
  rw [hzero] at hnum
  have hnil : (if (QuilVisitor.initMeasures measures).includeMeasures
      then recordedAddresses instrs else []) = [] := by
    apply List.eq_nil_of_length_eq_zero
    simp only [QuilVisitor.initMeasures] at hnum ⊢
    omega
  rw [hnil] at htext
  exact getClassicalAddresses_empty v (by rw [htext]; rfl)

/-- Witness for C6: a discard-mode traversal of a circuit with a measurement records no
address. -/
theorem C6_empty_address_list_renders_brackets_witness :
    QuilVisitor.getClassicalAddresses
        { quilStr := "H 0\n", measuredQubits := [0], includeMeasures := false } = some "[]" :=
  C6_empty_address_list_renders_brackets (fun (p : Nat) => toString p) false
    [.Hadamard [0], .Measure [0] 3]
    { quilStr := "H 0\n", measuredQubits := [0], includeMeasures := false }
    (by decide) (by decide)

/-- C6 (counterexample): a record-mode traversal of a circuit without measurement records no
address, and the address-list accessor succeeds with the text `[]`. -/
theorem C6_counterexample :
    ∃ v : QuilVisitor,
      QuilVisitor.acceptAll (fun (p : Nat) => toString p) QuilVisitor.init
        [.Hadamard [0], .CNOT [0, 1]] = some v ∧
      v.getNumberOfAddresses = 0 ∧
      v.getClassicalAddresses = some "[]" :=
  ⟨{ quilStr := "H 0\nCNOT 0 1\n" }, by decide, by decide, by decide⟩

/-- C7: in record mode, visiting a measurement of qubit `q` with classical address `a` from
any state appends exactly the line `MEASURE q [a]` with its line break to the text, appends
`a` as the last entry of the accumulated address text (whatever entries `as` it held stay in
front), and raises the measurement count by one. -/
theorem C7_record_measurement_step {P : Type} (lexical_cast : P → String)
    (v : QuilVisitor) (q a : Int) (bits : List Int) (hmode : v.includeMeasures = true) :
    ∃ w, QuilVisitor.visit lexical_cast v (Instruction.Measure (q :: bits) a) = some w ∧
      w.getQuilString =
        v.getQuilString ++ ("MEASURE " ++ to_string q ++ " [" ++ to_string a ++ "]\n") ∧
      w.classicalAddresses = v.classicalAddresses ++ (to_string a ++ ", ") ∧
      (∀ as, v.classicalAddresses = addressText as →
        w.classicalAddresses = addressText (as ++ [a])) ∧
      w.getNumberOfAddresses = v.getNumberOfAddresses + 1 := by
  refine ⟨{ v with
      quilStr := v.quilStr ++
        ("MEASURE " ++ to_string q ++ " [" ++ to_string a ++ "]\n")
      classicalAddresses := v.classicalAddresses ++ (to_string a ++ ", ")
      numAddresses := v.numAddresses + 1
      qubitToClassicalBitIndex := v.qubitToClassicalBitIndex.insert q a },
    by simp only [QuilVisitor.visit, List.getElem?_cons_zero, hmode, if_true],
    rfl, rfl, ?_, rfl⟩
  intro as has
  simp only [has, addressText_append, addressText, String.append_assoc, String.append_empty]

/-- Witness for C7: a second measurement in record mode. -/
theorem C7_record_measurement_step_witness :
    ∃ w, QuilVisitor.visit (fun (p : Nat) => toString p)
        { quilStr := "MEASURE 0 [4]\n", classicalAddresses := "4, ",
          qubitToClassicalBitIndex := [(0, 4)], numAddresses := 1 }
        (Instruction.Measure [2] 0) = some w ∧
      w.getQuilString = "MEASURE 0 [4]\n" ++ "MEASURE 2 [0]\n" ∧
      w.classicalAddresses = "4, " ++ "0, " ∧
      (∀ as, "4, " = addressText as → w.classicalAddresses = addressText (as ++ [0])) ∧
      w.getNumberOfAddresses = 1 + 1 :=
  C7_record_measurement_step (fun (p : Nat) => toString p)
    { quilStr := "MEASURE 0 [4]\n", classicalAddresses := "4, ",
      qubitToClassicalBitIndex := [(0, 4)], numAddresses := 1 } 2 0 [] rfl

/-- C8: visiting an instruction of a kind other than measurement and conditional function
appends exactly the line of its kind and one line break, for all bits and parameters:
`I q`, `X q`, `Y q`, `Z q`, `H q`, `CNOT b0 b1`, `CZ b0 b1`, `SWAP b0 b1`, `RX(p) q`,
`RY(p) q`, `RZ(p) q`, `CPHASE(p) b0 b1`, with the first and second target bit in stored
order and the rendered first parameter; for a `GateFunction` nothing is appended. -/
theorem C8_gate_lines_match_format_table {P : Type} (lexical_cast : P → String)
    (v : QuilVisitor) (b0 b1 : Int) (bits : List Int) (p : P) (ps : List P) :
    QuilVisitor.visit lexical_cast v (.Identity (b0 :: bits)) =
      some { v with quilStr := v.quilStr ++ ("I " ++ to_string b0 ++ "\n") } ∧
    QuilVisitor.visit lexical_cast v (.X (b0 :: bits)) =
      some { v with quilStr := v.quilStr ++ ("X " ++ to_string b0 ++ "\n") } ∧
    QuilVisitor.visit lexical_cast v (.Y (b0 :: bits)) =
      some { v with quilStr := v.quilStr ++ ("Y " ++ to_string b0 ++ "\n") } ∧
    QuilVisitor.visit lexical_cast v (.Z (b0 :: bits)) =
      some { v with quilStr := v.quilStr ++ ("Z " ++ to_string b0 ++ "\n") } ∧
    QuilVisitor.visit lexical_cast v (.Hadamard (b0 :: bits)) =
      some { v with quilStr := v.quilStr ++ ("H " ++ to_string b0 ++ "\n") } ∧
    QuilVisitor.visit lexical_cast v (.CNOT (b0 :: b1 :: bits)) =
      some { v with quilStr :=
        v.quilStr ++ ("CNOT " ++ to_string b0 ++ " " ++ to_string b1 ++ "\n") } ∧
    QuilVisitor.visit lexical_cast v (.CZ (b0 :: b1 :: bits)) =
      some { v with quilStr :=
        v.quilStr ++ ("CZ " ++ to_string b0 ++ " " ++ to_string b1 ++ "\n") } ∧
    QuilVisitor.visit lexical_cast v (.Swap (b0 :: b1 :: bits)) =
      some { v with quilStr :=
        v.quilStr ++ ("SWAP " ++ to_string b0 ++ " " ++ to_string b1 ++ "\n") } ∧
    QuilVisitor.visit lexical_cast v (.Rx (b0 :: bits) (p :: ps)) =
      some { v with quilStr :=
        v.quilStr ++ ("RX(" ++ lexical_cast p ++ ") " ++ to_string b0 ++ "\n") } ∧
    QuilVisitor.visit lexical_cast v (.Ry (b0 :: bits) (p :: ps)) =
      some { v with quilStr :=
        v.quilStr ++ ("RY(" ++ lexical_cast p ++ ") " ++ to_string b0 ++ "\n") } ∧
    QuilVisitor.visit lexical_cast v (.Rz (b0 :: bits) (p :: ps)) =
      some { v with quilStr :=
        v.quilStr ++ ("RZ(" ++ lexical_cast p ++ ") " ++ to_string b0 ++ "\n") } ∧
    QuilVisitor.visit lexical_cast v (.CPhase (b0 :: b1 :: bits) (p :: ps)) =
      some { v with quilStr :=
        v.quilStr ++
          ("CPHASE(" ++ lexical_cast p ++ ") " ++ to_string b0 ++ " " ++ to_string b1 ++ "\n") } ∧
    QuilVisitor.visit lexical_cast v (.GateFunction : Instruction P) = some v := by
  simp [QuilVisitor.visit]

/-- C9 (gates that emit a line): for a flat circuit of `N` instructions each of which has a
format-table entry (so none is a conditional function, a measurement or a `GateFunction`),
with parameter texts free of line breaks, the traversal succeeds and the text consists of
exactly `N` lines, each closed by a line break, the i-th line being the format-table line
of the i-th instruction. -/
theorem C9_flat_gate_circuit_lines {P : Type} (lexical_cast : P → String)
    (instrs : List (Instruction P))
    (hcast : ∀ p, '\n' ∉ (lexical_cast p).data)
    (hgates : ∀ i ∈ instrs, (formatEntry lexical_cast i).isSome = true) :
    ∃ v, QuilVisitor.acceptAll lexical_cast QuilVisitor.init instrs = some v ∧
      v.getQuilString = linesText (textLines v.getQuilString) ∧
      (textLines v.getQuilString).length = instrs.length ∧
      (textLines v.getQuilString).map some = instrs.map (formatEntry lexical_cast) := by
  have hlines : ∀ e ∈ instrs.filterMap (formatEntry lexical_cast), '\n' ∉ e.data := by
    intro e he
    obtain ⟨i, _, hi⟩ := List.mem_filterMap.mp he
    exact formatEntry_no_newline lexical_cast hcast i e hi
  have hrun : QuilVisitor.acceptAll lexical_cast QuilVisitor.init instrs =
      some { quilStr := linesText (instrs.filterMap (formatEntry lexical_cast)) } := by
    rw [acceptAll_gates lexical_cast instrs QuilVisitor.init hgates]
    simp [QuilVisitor.init]
  have htext : QuilVisitor.getQuilString
      { quilStr := linesText (instrs.filterMap (formatEntry lexical_cast)) } =
      linesText (instrs.filterMap (formatEntry lexical_cast)) := rfl
  refine ⟨_, hrun, ?_, ?_, ?_⟩
  · rw [htext, textLines_linesText _ hlines]
  · rw [htext, textLines_linesText _ hlines]
    have := congrArg List.length (filterMap_formatEntry lexical_cast instrs hgates)
    simpa using this
  · rw [htext, textLines_linesText _ hlines]
    exact filterMap_formatEntry lexical_cast instrs hgates

/-- Witness for C9: three gates give three lines. -/
theorem C9_flat_gate_circuit_lines_witness :
    ∃ v, QuilVisitor.acceptAll (fun (p : Nat) => toString p) QuilVisitor.init
        [.Hadamard [0], .CNOT [0, 1], .Rx [1] [3]] = some v ∧
      v.getQuilString = linesText (textLines v.getQuilString) ∧
      (textLines v.getQuilString).length = 3 ∧
      (textLines v.getQuilString).map some = [some "H 0", some "CNOT 0 1", some "RX(3) 1"] :=
  C9_flat_gate_circuit_lines (fun (p : Nat) => toString p)
    [.Hadamard [0], .CNOT [0, 1], .Rx [1] [3]]
    (fun p => repr_no_newline p)
    (by
      intro i hi
      simp only [List.mem_cons, List.mem_singleton, List.not_mem_nil, or_false] at hi
      rcases hi with rfl | rfl | rfl <;> rfl)

/-- C9 (counterexample): a flat circuit of two instructions, a Hadamard gate and a
`GateFunction`, neither a conditional function nor a measurement, yields one line. -/
theorem C9_counterexample :
    ∃ v : QuilVisitor,
      QuilVisitor.acceptAll (fun (p : Nat) => toString p) QuilVisitor.init
        [.Hadamard [0], .GateFunction] = some v ∧
      v.getQuilString = "H 0\n" ∧
      textLines v.getQuilString = ["H 0"] ∧
      (textLines v.getQuilString).length ≠
        [(Instruction.Hadamard [0] : Instruction Nat), .GateFunction].length :=
  ⟨{ quilStr := "H 0\n" }, by decide, by decide, by decide, by decide⟩

/-- C10: after a discard-mode traversal the list of measured qubits holds the target qubits
of the measurements this visitor visited, in visiting order with duplicates kept; and a
discard-mode visit of a measurement of qubit `q` appends `q` to that list and leaves the
text, the address text, the measurement count and the qubit-to-address map as they were. -/
theorem C10_discard_mode_measured_qubits {P : Type} (lexical_cast : P → String)
    (instrs : List (Instruction P)) (v u : QuilVisitor) (q a : Int) (bits : List Int)
    (hrun : QuilVisitor.acceptAll lexical_cast (QuilVisitor.initMeasures false) instrs
      = some v)
    (hmode : u.includeMeasures = false) :
    v.getMeasuredQubits = measuredTargets instrs ∧
    QuilVisitor.visit lexical_cast u (Instruction.Measure (q :: bits) a) =
      some { u with measuredQubits := u.measuredQubits ++ [q] } := by
  constructor
  · have h := (acceptAll_bookkeeping lexical_cast instrs _ v hrun).2.2.2
    simpa [QuilVisitor.initMeasures, QuilVisitor.getMeasuredQubits] using h
  · simp [QuilVisitor.visit, hmode]

/-- Witness for C10: qubit 1 is measured twice around a measurement of qubit 0. -/
theorem C10_discard_mode_measured_qubits_witness :
    QuilVisitor.getMeasuredQubits
        { quilStr := "X 1\n", measuredQubits := [1, 0, 1], includeMeasures := false } =
      [1, 0, 1] ∧
    QuilVisitor.visit (fun (p : Nat) => toString p)
        { quilStr := "X 1\n", measuredQubits := [1], includeMeasures := false }
        (Instruction.Measure [0] 3) =
      some { quilStr := "X 1\n", measuredQubits := [1, 0], includeMeasures := false } :=
  C10_discard_mode_measured_qubits (fun (p : Nat) => toString p)
    [.Measure [1] 0, .X [1], .Measure [0] 3, .Measure [1] 0]
    { quilStr := "X 1\n", measuredQubits := [1, 0, 1], includeMeasures := false }
    { quilStr := "X 1\n", measuredQubits := [1], includeMeasures := false } 0 3 []
    (by decide) rfl

/-- C11 (as the code behaves): after every prefix of a discard-mode traversal the address
text is empty and the measurement count is 0.  The qubit-to-address map is empty as long as
the visitor has visited no conditional function; afterwards it holds only entries `(q, 0)`
for condition qubits `q` of the conditional functions it visited. -/
theorem C11_discard_mode_bookkeeping {P : Type} (lexical_cast : P → String)
    (pre suf : List (Instruction P)) (w : QuilVisitor)
    (hrun : QuilVisitor.acceptAll lexical_cast (QuilVisitor.initMeasures false) (pre ++ suf)
      = some w) :
    ∃ u, QuilVisitor.acceptAll lexical_cast (QuilVisitor.initMeasures false) pre = some u ∧
      u.classicalAddresses = "" ∧
      addressEntries u.classicalAddresses = [] ∧
      u.getNumberOfAddresses = 0 ∧
      (∀ e ∈ u.qubitToClassicalBitIndex, e.2 = 0 ∧ e.1 ∈ conditionQubits pre) ∧
      (conditionQubits pre = [] → u.qubitToClassicalBitIndex = []) := by
  obtain ⟨u, hu, _⟩ := acceptAll_prefix lexical_cast pre suf _ w hrun
  obtain ⟨_, htext, hnum, _⟩ := acceptAll_bookkeeping lexical_cast pre _ u hu
  obtain ⟨hmap, hnil⟩ := acceptAll_discard_map lexical_cast pre _ u rfl hu
  have htext1 : u.classicalAddresses = "" := by
    rw [htext]; rfl
  refine ⟨u, hu, htext1, by rw [htext1]; rfl, ?_, ?_, ?_⟩
  · rw [QuilVisitor.getNumberOfAddresses, hnum]; rfl
  · intro e he
    rcases hmap e he with h1 | h1
    · simp [QuilVisitor.initMeasures] at h1
    · exact h1
  · intro hc
    rw [hnil hc]; rfl

/-- Witness for C11: a discard-mode traversal with two measurements and a conditional
function, looked at after its first three instructions. -/
theorem C11_discard_mode_bookkeeping_witness :
    ∃ u, QuilVisitor.acceptAll (fun (p : Nat) => toString p) (QuilVisitor.initMeasures false)
        [.Measure [0] 5, .ConditionalFunction "L" 0 [.Measure [1] 7], .X [1]] = some u ∧
      u.classicalAddresses = "" ∧
      addressEntries u.classicalAddresses = [] ∧
      u.getNumberOfAddresses = 0 ∧
      (∀ e ∈ u.qubitToClassicalBitIndex,
        e.2 = 0 ∧ e.1 ∈ conditionQubits
          ([.Measure [0] 5, .ConditionalFunction "L" 0 [.Measure [1] 7], .X [1]] :
            List (Instruction Nat))) ∧
      (conditionQubits
          ([.Measure [0] 5, .ConditionalFunction "L" 0 [.Measure [1] 7], .X [1]] :
            List (Instruction Nat)) = [] → u.qubitToClassicalBitIndex = []) :=
  C11_discard_mode_bookkeeping (fun (p : Nat) => toString p)
    [.Measure [0] 5, .ConditionalFunction "L" 0 [.Measure [1] 7], .X [1]] [.Measure [1] 2]
    { quilStr := "JUMP-UNLESS @L [0]\nMEASURE 1 [7]\nLABEL @L\nX 1\n",
      qubitToClassicalBitIndex := [(0, 0)], measuredQubits := [0, 1],
      includeMeasures := false }
    (by decide)

/-- C11 (counterexample): a discard-mode visitor that visits one conditional function on
qubit 0 ends with the map entry `(0, 0)`; its map is not empty. -/
theorem C11_counterexample :
    ∃ u : QuilVisitor,
      QuilVisitor.acceptAll (fun (p : Nat) => toString p) (QuilVisitor.initMeasures false)
        [.ConditionalFunction "L" 0 []] = some u ∧
      u.qubitToClassicalBitIndex = [(0, 0)] ∧
      u.qubitToClassicalBitIndex ≠ [] :=
  ⟨{ quilStr := "JUMP-UNLESS @L [0]\nLABEL @L\n", qubitToClassicalBitIndex := [(0, 0)],
     includeMeasures := false }, by decide, by decide, by decide⟩

/-- C12 (record mode): in a record-mode traversal, visiting a conditional function whose
condition qubit the visitor measured before changes the text only, provided the nested
instructions are visited successfully: address text, measurement count, qubit-to-address
map, list of measured qubits and mode are afterwards what they were before, whatever the
nested sequence measures. -/
theorem C12_conditional_changes_text_only {P : Type} (lexical_cast : P → String)
    (pre body : List (Instruction P)) (v sub : QuilVisitor) (L : String) (q : Int)
    (hrun : QuilVisitor.acceptAll lexical_cast (QuilVisitor.initMeasures true) pre = some v)
    (hmeasured : q ∈ measuredTargets pre)
    (hsub : QuilVisitor.acceptAll lexical_cast QuilVisitor.init body = some sub) :
    ∃ w, QuilVisitor.visit lexical_cast v (.ConditionalFunction L q body) = some w ∧
      w.classicalAddresses = v.classicalAddresses ∧
      w.getNumberOfAddresses = v.getNumberOfAddresses ∧
      w.qubitToClassicalBitIndex = v.qubitToClassicalBitIndex ∧
      w.getMeasuredQubits = v.getMeasuredQubits ∧
      w.includeMeasures = v.includeMeasures ∧
      ∃ t, w.getQuilString = v.getQuilString ++ t := by
  obtain ⟨a, ha⟩ := acceptAll_record_entry lexical_cast pre _ v q rfl hmeasured hrun
  obtain ⟨w, hw, h1, h2, h3, h4, h5, h6⟩ :=
    visit_conditional_entry lexical_cast v sub L q a body ha hsub
  exact ⟨w, hw, h1, h2, h3, h4, h5, _, h6⟩

/-- Witness for C12: qubit 0 is measured at address 5; the nested sequence measures qubit 1
at address 7, and the bookkeeping of the parent keeps its single entry. -/
theorem C12_conditional_changes_text_only_witness :
    ∃ w, QuilVisitor.visit (fun (p : Nat) => toString p)
        { quilStr := "MEASURE 0 [5]\n", classicalAddresses := "5, ",
          qubitToClassicalBitIndex := [(0, 5)], numAddresses := 1 }
        (.ConditionalFunction "L" 0 [.Measure [1] 7]) = some w ∧
      w.classicalAddresses = "5, " ∧
      w.getNumberOfAddresses = 1 ∧
      w.qubitToClassicalBitIndex = [(0, 5)] ∧
      w.getMeasuredQubits = [] ∧
      w.includeMeasures = true ∧
      ∃ t, w.getQuilString = "MEASURE 0 [5]\n" ++ t :=
  C12_conditional_changes_text_only (fun (p : Nat) => toString p)
    [.Measure [0] 5] [.Measure [1] 7]
    { quilStr := "MEASURE 0 [5]\n", classicalAddresses := "5, ",
      qubitToClassicalBitIndex := [(0, 5)], numAddresses := 1 }
    { quilStr := "MEASURE 1 [7]\n", classicalAddresses := "7, ",
      qubitToClassicalBitIndex := [(1, 7)], numAddresses := 1 }
    "L" 0 (by decide) (by decide) (by decide)

/-- C12 (counterexample): a discard-mode visitor measures qubit 0 and then visits a
conditional function on qubit 0; the map, empty before the block, holds `(0, 0)` after
it. -/
theorem C12_counterexample :
    ∃ v w : QuilVisitor,
      QuilVisitor.acceptAll (fun (p : Nat) => toString p) (QuilVisitor.initMeasures false)
        [.Measure [0] 5] = some v ∧
      QuilVisitor.visit (fun (p : Nat) => toString p) v
        (.ConditionalFunction "L" 0 [.X [1]]) = some w ∧
      v.qubitToClassicalBitIndex = [] ∧
      w.qubitToClassicalBitIndex = [(0, 0)] ∧
      w.qubitToClassicalBitIndex ≠ v.qubitToClassicalBitIndex :=
  ⟨{ measuredQubits := [0], includeMeasures := false },
   { quilStr := "JUMP-UNLESS @L [0]\nX 1\nLABEL @L\n", measuredQubits := [0],
     qubitToClassicalBitIndex := [(0, 0)], includeMeasures := false },
   by decide, by decide, by decide, by decide, by decide⟩

/-- C13: after every prefix of a traversal in either mode, the number of entries of the
address list accumulated in `classicalAddresses` equals the measurement count
`getNumberOfAddresses`. -/
theorem C13_address_entries_equal_count {P : Type} (lexical_cast : P → String)
    (measures : Bool) (pre suf : List (Instruction P)) (w : QuilVisitor)
    (hrun : QuilVisitor.acceptAll lexical_cast (QuilVisitor.initMeasures measures)
      (pre ++ suf) = some w) :
    ∃ u, QuilVisitor.acceptAll lexical_cast (QuilVisitor.initMeasures measures) pre = some u ∧
      (addressEntries u.classicalAddresses).length = u.getNumberOfAddresses := by
  obtain ⟨u, hu, _⟩ := acceptAll_prefix lexical_cast pre suf _ w hrun
  obtain ⟨_, htext, hnum, _⟩ := acceptAll_bookkeeping lexical_cast pre _ u hu
  refine ⟨u, hu, ?_⟩
  have htext1 : u.classicalAddresses = addressText
      (if (QuilVisitor.initMeasures measures).includeMeasures
        then recordedAddresses pre else []) := by
    rw [htext]; simp [QuilVisitor.initMeasures]
  rw [htext1, addressEntries_addressText, List.length_map, QuilVisitor.getNumberOfAddresses,
    hnum]
  simp [QuilVisitor.initMeasures]

/-- Witness for C13: a record-mode traversal, looked at after its first three
instructions, has two entries and count 2. -/
theorem C13_address_entries_equal_count_witness :
    ∃ u, QuilVisitor.acceptAll (fun (p : Nat) => toString p) (QuilVisitor.initMeasures true)
        [.Measure [0] 5, .Hadamard [0], .Measure [1] 12] = some u ∧
      (addressEntries u.classicalAddresses).length = u.getNumberOfAddresses :=
  C13_address_entries_equal_count (fun (p : Nat) => toString p) true
    [.Measure [0] 5, .Hadamard [0], .Measure [1] 12] [.Measure [0] 6]
    { quilStr := "MEASURE 0 [5]\nH 0\nMEASURE 1 [12]\nMEASURE 0 [6]\n",
      classicalAddresses := "5, 12, 6, ",
      qubitToClassicalBitIndex := [(0, 5), (1, 12)], numAddresses := 3 }
    (by decide)

/-- C14: the text only grows.  A successful visit leaves the text it found as a prefix of
the text it produces, and in a successful traversal of a sequence the text reached after a
prefix of the sequence is a prefix of the final text. -/
theorem C14_text_grows_monotonically {P : Type} (lexical_cast : P → String)
    (v0 v w w2 : QuilVisitor) (i : Instruction P) (pre suf : List (Instruction P))
    (hstep : QuilVisitor.visit lexical_cast v i = some w)
    (hrun : QuilVisitor.acceptAll lexical_cast v0 (pre ++ suf) = some w2) :
    v.getQuilString.data <+: w.getQuilString.data ∧
    ∃ u, QuilVisitor.acceptAll lexical_cast v0 pre = some u ∧
      u.getQuilString.data <+: w2.getQuilString.data := by
  constructor
  · obtain ⟨t, ht⟩ := visit_text_grows lexical_cast v w i hstep
    exact ⟨t.data, by simp [QuilVisitor.getQuilString, ht, String.data_append]⟩
  · obtain ⟨u, hu, hrest⟩ := acceptAll_prefix lexical_cast pre suf v0 w2 hrun
    obtain ⟨t, ht⟩ := acceptAll_text_grows lexical_cast suf u w2 hrest
    exact ⟨u, hu, t.data, by simp [QuilVisitor.getQuilString, ht, String.data_append]⟩

/-- Witness for C14: a conditional function visited after a measurement, and a traversal of
three instructions looked at after its first two. -/
theorem C14_text_grows_monotonically_witness :
    ("MEASURE 0 [5]\n" : String).data <+:
      ("MEASURE 0 [5]\nJUMP-UNLESS @L [5]\nX 1\nLABEL @L\n" : String).data ∧
    ∃ u, QuilVisitor.acceptAll (fun (p : Nat) => toString p) QuilVisitor.init
        [.Hadamard [0], .Measure [0] 5] = some u ∧
      u.getQuilString.data <+: ("H 0\nMEASURE 0 [5]\nCNOT 0 1\n" : String).data :=
  C14_text_grows_monotonically (fun (p : Nat) => toString p) QuilVisitor.init
    { quilStr := "MEASURE 0 [5]\n", classicalAddresses := "5, ",
      qubitToClassicalBitIndex := [(0, 5)], numAddresses := 1 }
    { quilStr := "MEASURE 0 [5]\nJUMP-UNLESS @L [5]\nX 1\nLABEL @L\n",
      classicalAddresses := "5, ", qubitToClassicalBitIndex := [(0, 5)], numAddresses := 1 }
    { quilStr := "H 0\nMEASURE 0 [5]\nCNOT 0 1\n", classicalAddresses := "5, ",
      qubitToClassicalBitIndex := [(0, 5)], numAddresses := 1 }
    (.ConditionalFunction "L" 0 [.X [1]])
    [.Hadamard [0], .Measure [0] 5] [.CNOT [0, 1]]
    (by decide) (by decide)

/-- C15: visiting a `GateFunction` is the identity on the state of the visitor, in both
modes: the visit succeeds and returns the state it was given, so text, address text,
measurement count, qubit-to-address map and list of measured qubits are unchanged. -/
theorem C15_gate_function_is_identity {P : Type} (lexical_cast : P → String)
    (v : QuilVisitor) :
    QuilVisitor.visit lexical_cast v (Instruction.GateFunction : Instruction P) = some v := by
  simp only [QuilVisitor.visit]

/-- C16: a sequence of well-formed instructions none of which is a conditional function is
traversed successfully from a fresh visitor in either mode; no visit fails on a missing
target bit or parameter. -/
theorem C16_well_formed_flat_traversal_succeeds {P : Type} (lexical_cast : P → String)
    (measures : Bool) (instrs : List (Instruction P))
    (hwf : ∀ i ∈ instrs, i.wellFormed = true)
    (hflat : ∀ i ∈ instrs, i.isConditional = false) :
    ∃ w, QuilVisitor.acceptAll lexical_cast (QuilVisitor.initMeasures measures) instrs
      = some w := by
  exact acceptAll_wellFormed lexical_cast instrs _ hwf hflat

/-- Witness for C16: one instruction of every arity, in discard mode. -/
theorem C16_well_formed_flat_traversal_succeeds_witness :
    ∃ w, QuilVisitor.acceptAll (fun (p : Nat) => toString p) (QuilVisitor.initMeasures false)
      [.Hadamard [0], .CNOT [0, 1], .Rz [1] [3], .CPhase [0, 1] [2], .Measure [1] 0,
       .GateFunction] = some w :=
  C16_well_formed_flat_traversal_succeeds (fun (p : Nat) => toString p) false
    [.Hadamard [0], .CNOT [0, 1], .Rz [1] [3], .CPhase [0, 1] [2], .Measure [1] 0,
     .GateFunction]
    (by
      intro i hi
      simp only [List.mem_cons, List.mem_singleton, List.not_mem_nil, or_false] at hi
      rcases hi with rfl | rfl | rfl | rfl | rfl | rfl <;> rfl)
    (by
      intro i hi
      simp only [List.mem_cons, List.mem_singleton, List.not_mem_nil, or_false] at hi
      rcases hi with rfl | rfl | rfl | rfl | rfl | rfl <;> rfl)

/-- C17: emission is compositional over concatenation when the second sequence holds no
conditional function.  In either mode, when fresh visitors traverse `s1` and `s2`
successfully, a fresh visitor traverses `s1 ++ s2` successfully; its text is the text of
`s1` followed by the text of `s2`, its address list is the address list of `s1` followed by
that of `s2`, and its measurement count is the sum of the two counts. -/
theorem C17_emission_is_compositional {P : Type} (lexical_cast : P → String)
    (measures : Bool) (s1 s2 : List (Instruction P)) (w1 w2 : QuilVisitor)
    (hflat : ∀ i ∈ s2, i.isConditional = false)
    (h1 : QuilVisitor.acceptAll lexical_cast (QuilVisitor.initMeasures measures) s1 = some w1)
    (h2 : QuilVisitor.acceptAll lexical_cast (QuilVisitor.initMeasures measures) s2 = some w2) :
    ∃ w, QuilVisitor.acceptAll lexical_cast (QuilVisitor.initMeasures measures) (s1 ++ s2)
        = some w ∧
      w.getQuilString = w1.getQuilString ++ w2.getQuilString ∧
      w.classicalAddresses = w1.classicalAddresses ++ w2.classicalAddresses ∧
      addressEntries w.classicalAddresses =
        addressEntries w1.classicalAddresses ++ addressEntries w2.classicalAddresses ∧
      w.getNumberOfAddresses = w1.getNumberOfAddresses + w2.getNumberOfAddresses := by
  have hwf := wellFormed_of_acceptAll lexical_cast s2 _ w2 h2
  obtain ⟨w, hw⟩ := acceptAll_wellFormed lexical_cast s2 w1 hwf hflat
  have hrun : QuilVisitor.acceptAll lexical_cast (QuilVisitor.initMeasures measures)
      (s1 ++ s2) = some w := by
    rw [acceptAll_append, h1]
    exact hw
  obtain ⟨m1, c1, n1, _⟩ := acceptAll_bookkeeping lexical_cast s1 _ w1 h1
  obtain ⟨_, c2, n2, _⟩ := acceptAll_bookkeeping lexical_cast s2 _ w2 h2
  obtain ⟨_, c, n, _⟩ := acceptAll_bookkeeping lexical_cast s2 _ w hw
  have hmode : w1.includeMeasures = measures := m1
  have t2 := acceptAll_flat_text lexical_cast s2 _ w2 hflat h2
  have t := acceptAll_flat_text lexical_cast s2 _ w hflat hw
  have hinit : (QuilVisitor.initMeasures measures).includeMeasures = measures := rfl
  have hq0 : (QuilVisitor.initMeasures measures).quilStr = "" := rfl
  have hc0 : (QuilVisitor.initMeasures measures).classicalAddresses = "" := rfl
  have hn0 : (QuilVisitor.initMeasures measures).numAddresses = 0 := rfl
  rw [hinit, hq0, String.empty_append] at t2
  rw [hinit, hc0, String.empty_append] at c1 c2
  rw [hinit, hn0, Nat.zero_add] at n1 n2
  rw [hmode] at t c n
  refine ⟨w, hrun, ?_, ?_, ?_, ?_⟩
  · simp only [QuilVisitor.getQuilString]
    rw [t, t2]
  · rw [c, c2]
  · rw [c, c1, c2, ← addressText_append]
    simp only [addressEntries_addressText, List.map_append]
  · simp only [QuilVisitor.getNumberOfAddresses]
    rw [n, n2]

/-- Witness for C17: a sequence with a conditional function followed by a sequence with a
measurement, in record mode. -/
theorem C17_emission_is_compositional_witness :
    ∃ w, QuilVisitor.acceptAll (fun (p : Nat) => toString p) (QuilVisitor.initMeasures true)
        ([.Measure [0] 5, .ConditionalFunction "L" 0 [.X [1]]] ++
          [.Hadamard [1], .Measure [1] 6]) = some w ∧
      w.getQuilString =
        "MEASURE 0 [5]\nJUMP-UNLESS @L [5]\nX 1\nLABEL @L\n" ++ "H 1\nMEASURE 1 [6]\n" ∧
      w.classicalAddresses = "5, " ++ "6, " ∧
      addressEntries w.classicalAddresses = addressEntries "5, " ++ addressEntries "6, " ∧
      w.getNumberOfAddresses = 1 + 1 :=
  C17_emission_is_compositional (fun (p : Nat) => toString p) true
    [.Measure [0] 5, .ConditionalFunction "L" 0 [.X [1]]] [.Hadamard [1], .Measure [1] 6]
    { quilStr := "MEASURE 0 [5]\nJUMP-UNLESS @L [5]\nX 1\nLABEL @L\n",
      classicalAddresses := "5, ", qubitToClassicalBitIndex := [(0, 5)], numAddresses := 1 }
    { quilStr := "H 1\nMEASURE 1 [6]\n",
      classicalAddresses := "6, ", qubitToClassicalBitIndex := [(1, 6)], numAddresses := 1 }
    (by
      intro i hi
      simp only [List.mem_cons, List.mem_singleton, List.not_mem_nil, or_false] at hi
      rcases hi with rfl | rfl <;> rfl)
    (by decide) (by decide)


/-- C18: after a record-mode traversal of a sequence without conditional function (with
parameter texts free of line breaks), the text and the address list agree: the number of
text lines that begin with `MEASURE` and a blank equals the measurement count, and the
address inside the brackets of the i-th such line is the i-th entry of the address list. -/
theorem C18_measure_lines_match_address_list {P : Type} (lexical_cast : P → String)
    (instrs : List (Instruction P)) (v : QuilVisitor)
    (hcast : ∀ p, '\n' ∉ (lexical_cast p).data)
    (hflat : ∀ i ∈ instrs, i.isConditional = false)
    (hrun : QuilVisitor.acceptAll lexical_cast (QuilVisitor.initMeasures true) instrs
      = some v) :
    ((textLines v.getQuilString).filter isMeasureLine).length = v.getNumberOfAddresses ∧
    ((textLines v.getQuilString).filter isMeasureLine).map bracketText =
      addressEntries v.classicalAddresses := by
  have hwf := wellFormed_of_acceptAll lexical_cast instrs _ v hrun
  have htext := acceptAll_flat_text lexical_cast instrs _ v hflat hrun
  obtain ⟨_, hc, hn, _⟩ := acceptAll_bookkeeping lexical_cast instrs _ v hrun
  have hq : v.getQuilString = linesText (flatLines lexical_cast true instrs) := by
    rw [QuilVisitor.getQuilString, htext]
    simp [QuilVisitor.initMeasures]
  have hc1 : v.classicalAddresses = addressText (recordedAddresses instrs) := by
    rw [hc]
    simp [QuilVisitor.initMeasures]
  have hn1 : v.getNumberOfAddresses = (recordedAddresses instrs).length := by
    rw [QuilVisitor.getNumberOfAddresses, hn]
    simp [QuilVisitor.initMeasures]
  have hlines : ((textLines v.getQuilString).filter isMeasureLine).map bracketText =
      (recordedAddresses instrs).map to_string := by
    rw [hq, textLines_linesText _ (flatLines_no_newline lexical_cast hcast true instrs),
      flatLines_measure lexical_cast instrs hwf]
  constructor
  · have := congrArg List.length hlines
    simpa [hn1] using this
  · rw [hlines, hc1, addressEntries_addressText]

/-- Witness for C18: two measurements among gates. -/
theorem C18_measure_lines_match_address_list_witness :
    ((textLines "H 0\nMEASURE 0 [5]\nCNOT 0 1\nMEASURE 1 [12]\n").filter isMeasureLine).length
      = 2 ∧
    ((textLines "H 0\nMEASURE 0 [5]\nCNOT 0 1\nMEASURE 1 [12]\n").filter isMeasureLine).map
      bracketText = addressEntries "5, 12, " :=
  C18_measure_lines_match_address_list (fun (p : Nat) => toString p)
    [.Hadamard [0], .Measure [0] 5, .CNOT [0, 1], .Measure [1] 12]
    { quilStr := "H 0\nMEASURE 0 [5]\nCNOT 0 1\nMEASURE 1 [12]\n",
      classicalAddresses := "5, 12, ",
      qubitToClassicalBitIndex := [(0, 5), (1, 12)], numAddresses := 2 }
    (fun p => repr_no_newline p)
    (by
      intro i hi
      simp only [List.mem_cons, List.mem_singleton, List.not_mem_nil, or_false] at hi
      rcases hi with rfl | rfl | rfl | rfl <;> rfl)
    (by decide)

/-- C19: jump and label lines are balanced and nested.  For an instruction tree whose labels
hold no line break (and parameter texts free of line breaks) and whose traversal succeeds
in either mode, the number of lines beginning with `JUMP-UNLESS @` equals the number of
lines beginning with `LABEL @` and the number of conditional functions at all nesting
depths; and reading the text from top to bottom every `LABEL @L` line closes the most recent
jump line still open, which carries the same label `L`, leaving none open at the end. -/
theorem C19_jump_and_label_lines_nested {P : Type} (lexical_cast : P → String)
    (measures : Bool) (instrs : List (Instruction P)) (v : QuilVisitor)
    (hcast : ∀ p, '\n' ∉ (lexical_cast p).data)
    (hlabels : labelsWithoutLineBreakList instrs = true)
    (hrun : QuilVisitor.acceptAll lexical_cast (QuilVisitor.initMeasures measures) instrs
      = some v) :
    ((textLines v.getQuilString).filter isJumpLine).length =
      ((textLines v.getQuilString).filter isLabelLine).length ∧
    ((textLines v.getQuilString).filter isJumpLine).length = countConditionalsList instrs ∧
    wellNested [] (textLines v.getQuilString) = true := by
  obtain ⟨ls, htext, h1, h2, h3, h4⟩ :=
    acceptAll_lines lexical_cast hcast instrs _ v hlabels hrun
  have hq : v.getQuilString = linesText ls := by
    rw [QuilVisitor.getQuilString, htext]
    simp [QuilVisitor.initMeasures]
  rw [hq, textLines_linesText ls h1]
  refine ⟨by rw [h3, h4], h3, ?_⟩
  have := h2 [] []
  simpa [wellNested] using this

/-- Witness for C19: two conditional functions, one nested in the other, and a third after
them. -/
theorem C19_jump_and_label_lines_nested_witness :
    ((textLines "MEASURE 0 [5]\nJUMP-UNLESS @A [5]\nMEASURE 1 [6]\nJUMP-UNLESS @B [6]\nX 2\nLABEL @B\nLABEL @A\nJUMP-UNLESS @C [0]\nLABEL @C\n").filter
        isJumpLine).length =
      ((textLines "MEASURE 0 [5]\nJUMP-UNLESS @A [5]\nMEASURE 1 [6]\nJUMP-UNLESS @B [6]\nX 2\nLABEL @B\nLABEL @A\nJUMP-UNLESS @C [0]\nLABEL @C\n").filter
        isLabelLine).length ∧
    ((textLines "MEASURE 0 [5]\nJUMP-UNLESS @A [5]\nMEASURE 1 [6]\nJUMP-UNLESS @B [6]\nX 2\nLABEL @B\nLABEL @A\nJUMP-UNLESS @C [0]\nLABEL @C\n").filter
        isJumpLine).length = 3 ∧
    wellNested [] (textLines "MEASURE 0 [5]\nJUMP-UNLESS @A [5]\nMEASURE 1 [6]\nJUMP-UNLESS @B [6]\nX 2\nLABEL @B\nLABEL @A\nJUMP-UNLESS @C [0]\nLABEL @C\n") = true :=
  C19_jump_and_label_lines_nested (fun (p : Nat) => toString p) true
    [.Measure [0] 5,
     .ConditionalFunction "A" 0 [.Measure [1] 6, .ConditionalFunction "B" 1 [.X [2]]],
     .ConditionalFunction "C" 7 []]
    { quilStr := "MEASURE 0 [5]\nJUMP-UNLESS @A [5]\nMEASURE 1 [6]\nJUMP-UNLESS @B [6]\nX 2\nLABEL @B\nLABEL @A\nJUMP-UNLESS @C [0]\nLABEL @C\n",
      classicalAddresses := "5, ", qubitToClassicalBitIndex := [(0, 5), (7, 0)],
      numAddresses := 1 }
    (fun p => repr_no_newline p) (by decide) (by decide)
